import Mathlib

set_option maxRecDepth 2000

/-!
Verification development for the "relative" quantity-comparison engine.

The embedding below translates the TypeScript source of the repository
into Lean: the static data tables (`src/data/units.ts`, shipped inside
`src/data/conversions.ts` in this snapshot, `src/data/quantities.ts`,
`src/data/conversions.ts`) and the conversion engine
(`src/engine/converter.ts`).  JavaScript numbers are modelled as exact
rationals (`ℚ`); this is the usual idealization of the float arithmetic
in the source.  The only real-valued function of the source,
`scoreDuration` (which uses `Math.log10`), is modelled twice: once
verbatim over `ℝ` (`scoreDuration`), and once through the decidable
order-mirror `durationBadness`, with the agreement of the two
comparisons proved in `scoreDuration_lt_iff`.  The executable selection
code uses `durationBadness`, exactly mirroring the source's
"pick the candidate with the strictly largest score, first wins ties"
loop.

Strings that the engine never branches on (entry descriptions, the
human-readable step description built in `findCandidates`) are omitted
from the records; every field the engine reads is kept.
-/

namespace Relative

/-- A measurement unit (`Unit` in `src/types.ts`; primed to avoid the
Lean core name).  `toBase` converts a value in this unit to the
dimension's base unit. -/
structure Unit' where
  id : String
  name : String
  symbol : String
  dimension : String
  toBase : ℚ
deriving DecidableEq

/-- A real-world quantity entry (`QuantityEntry` in `src/types.ts`).
The presentational `description`/`category` fields, which the engine
never reads, are omitted. -/
structure QuantityEntry where
  id : String
  name : String
  emoji : String
  value : ℚ
  unitId : String
deriving DecidableEq

/-- A cross-dimension conversion rule (`ConversionRule` in
`src/types.ts`).  The optional `durationBased` flag of the source is
modelled as a `Bool` (absent = `false`); `description` is omitted. -/
structure ConversionRule where
  id : String
  name : String
  fromDimension : String
  toDimension : String
  factor : ℚ
  bidirectional : Bool
  durationBased : Bool
deriving DecidableEq

/-- The unit table from `src/data/units.ts`. -/
def units : List Unit' := [
  -- POWER (base: watts)
  ⟨"mW", "milliwatts", "mW", "power", 0.001⟩,
  ⟨"W", "watts", "W", "power", 1⟩,
  ⟨"kW", "kilowatts", "kW", "power", 1000⟩,
  ⟨"MW", "megawatts", "MW", "power", 1000000⟩,
  ⟨"GW", "gigawatts", "GW", "power", 1000000000⟩,
  ⟨"TW", "terawatts", "TW", "power", 1000000000000⟩,
  -- ENERGY (base: watt-hours)
  ⟨"mWh", "milliwatt-hours", "mWh", "energy", 0.001⟩,
  ⟨"Wh", "watt-hours", "Wh", "energy", 1⟩,
  ⟨"kWh", "kilowatt-hours", "kWh", "energy", 1000⟩,
  ⟨"MWh", "megawatt-hours", "MWh", "energy", 1000000⟩,
  ⟨"GWh", "gigawatt-hours", "GWh", "energy", 1000000000⟩,
  -- DISTANCE (base: meters)
  ⟨"m", "meters", "m", "distance", 1⟩,
  ⟨"km", "kilometers", "km", "distance", 1000⟩,
  ⟨"mi", "miles", "mi", "distance", 1609.34⟩,
  -- TIME (base: seconds)
  ⟨"s", "seconds", "s", "time", 1⟩,
  ⟨"min", "minutes", "min", "time", 60⟩,
  ⟨"hr", "hours", "hr", "time", 3600⟩,
  ⟨"day", "days", "day", "time", 86400⟩,
  ⟨"yr", "years", "yr", "time", 31557600⟩,
  -- MASS (base: kilograms)
  ⟨"g", "grams", "g", "mass", 0.001⟩,
  ⟨"kg", "kilograms", "kg", "mass", 1⟩,
  ⟨"ton", "metric tons", "t", "mass", 1000⟩,
  -- CURRENCY (base: US dollars)
  ⟨"cent", "cents", "¢", "currency", 0.01⟩,
  ⟨"USD", "US dollars", "$", "currency", 1⟩,
  ⟨"kUSD", "thousand dollars", "k$", "currency", 1000⟩,
  ⟨"MUSD", "million dollars", "M$", "currency", 1000000⟩,
  ⟨"BUSD", "billion dollars", "B$", "currency", 1000000000⟩]

/-- `getUnit` from `src/data/units.ts`: lookup a unit by id, throwing
(`Except.error`) if not found. -/
def getUnit (id : String) : Except String Unit' :=
  match units.find? (fun u => u.id == id) with
  | some u => Except.ok u
  | none => Except.error ("Unknown unit: " ++ id)

/-- The quantity table from `src/data/quantities.ts`. -/
def quantities : List QuantityEntry := [
  -- POWER, small electronics
  ⟨"led-indicator", "LED indicator light", "🔴", 20, "mW"⟩,
  ⟨"smartphone-idle", "Smartphone (idle)", "📱", 0.5, "W"⟩,
  ⟨"smartphone-active", "Smartphone (active use)", "📱", 3, "W"⟩,
  ⟨"laptop", "Laptop computer", "💻", 50, "W"⟩,
  ⟨"gaming-pc", "Gaming PC", "🖥️", 400, "W"⟩,
  ⟨"wifi-router", "Wi-Fi router", "📡", 10, "W"⟩,
  ⟨"tv", "Television (55\")", "📺", 100, "W"⟩,
  -- POWER, household appliances
  ⟨"led-bulb", "LED light bulb", "💡", 10, "W"⟩,
  ⟨"incandescent-bulb", "Incandescent bulb", "💡", 60, "W"⟩,
  ⟨"ceiling-fan", "Ceiling fan", "🌀", 75, "W"⟩,
  ⟨"refrigerator", "Refrigerator", "🧊", 150, "W"⟩,
  ⟨"washing-machine", "Washing machine", "👕", 500, "W"⟩,
  ⟨"dishwasher", "Dishwasher", "🍽️", 1.8, "kW"⟩,
  ⟨"hair-dryer", "Hair dryer", "💨", 1.5, "kW"⟩,
  ⟨"microwave", "Microwave oven", "🔲", 1.2, "kW"⟩,
  ⟨"electric-oven", "Electric oven", "🔥", 3, "kW"⟩,
  ⟨"ac-unit", "Central air conditioner", "❄️", 3.5, "kW"⟩,
  ⟨"ev-charger", "EV charger (Level 2)", "🔌", 7.2, "kW"⟩,
  -- POWER, buildings and communities
  ⟨"us-household", "US household (average)", "🏠", 1.2, "kW"⟩,
  ⟨"school", "School building", "🏫", 100, "kW"⟩,
  ⟨"hospital", "Hospital", "🏥", 2, "MW"⟩,
  ⟨"office-building", "Office building", "🏢", 500, "kW"⟩,
  ⟨"shopping-mall", "Shopping mall", "🏬", 3, "MW"⟩,
  ⟨"small-town", "Small town (5,000 people)", "🏘️", 5, "MW"⟩,
  ⟨"small-city", "Small city (100k people)", "🏙️", 100, "MW"⟩,
  ⟨"large-city", "Large city (1M people)", "🌆", 1, "GW"⟩,
  -- POWER, industrial and infrastructure
  ⟨"electric-kiln", "Electric kiln (pottery)", "🏺", 8, "kW"⟩,
  ⟨"arc-furnace", "Electric arc furnace", "🔩", 50, "MW"⟩,
  ⟨"aluminum-smelter", "Aluminum smelter", "🪙", 300, "MW"⟩,
  ⟨"data-center-small", "Small data center", "🖥️", 5, "MW"⟩,
  ⟨"data-center-hyperscale", "Hyperscale data center", "🏗️", 100, "MW"⟩,
  ⟨"gw-data-center", "Gigawatt data center campus", "⚡", 1, "GW"⟩,
  -- POWER, generation
  ⟨"solar-panel", "Solar panel (residential)", "☀️", 400, "W"⟩,
  ⟨"wind-turbine", "Wind turbine (onshore)", "🌬️", 3, "MW"⟩,
  ⟨"nuclear-reactor", "Nuclear reactor", "☢️", 1, "GW"⟩,
  -- ENERGY, batteries and stored energy
  ⟨"aaa-battery", "AAA battery", "🔋", 1.8, "Wh"⟩,
  ⟨"aa-battery", "AA battery", "🔋", 3.9, "Wh"⟩,
  ⟨"phone-battery", "Smartphone battery", "📱", 15, "Wh"⟩,
  ⟨"laptop-battery", "Laptop battery", "💻", 60, "Wh"⟩,
  ⟨"tesla-battery", "Tesla Model 3 battery", "🚗", 60, "kWh"⟩,
  ⟨"powerwall", "Tesla Powerwall", "🔋", 13.5, "kWh"⟩,
  -- ENERGY, consumption events
  ⟨"charge-phone", "Charge a smartphone", "🔌", 15, "Wh"⟩,
  ⟨"load-laundry", "Load of laundry", "👕", 0.5, "kWh"⟩,
  ⟨"kiln-firing", "Fire a kiln load (pottery)", "🏺", 80, "kWh"⟩,
  ⟨"household-daily", "US household daily use", "🏠", 29, "kWh"⟩,
  ⟨"smelt-aluminum-kg", "Smelt 1 kg of aluminum", "🪙", 15, "kWh"⟩,
  -- DISTANCE, for cross-dimension conversions
  ⟨"city-block", "City block", "🧱", 100, "m"⟩,
  ⟨"marathon", "Marathon", "🏃", 42.195, "km"⟩,
  ⟨"cross-country-us", "Cross-country US trip", "🗺️", 4500, "km"⟩,
  ⟨"earth-circumference", "Around the Earth", "🌍", 40075, "km"⟩,
  ⟨"earth-to-moon", "Earth to Moon", "🌙", 384400, "km"⟩]

/-- The cross-dimension rule table from `src/data/conversions.ts`. -/
def conversionRules : List ConversionRule := [
  ⟨"power-energy-duration", "Running time", "power", "energy",
    1, true, true⟩,
  ⟨"energy-to-distance-tesla", "Tesla Model 3 driving", "energy", "distance",
    1000 / 150, true, false⟩,
  ⟨"energy-to-mass-aluminum", "Aluminum smelting", "energy", "mass",
    1 / 15000, true, false⟩,
  ⟨"energy-to-time-household", "US household consumption time", "energy", "time",
    3600 / 1200, true, false⟩,
  ⟨"energy-to-money-electricity", "US electricity cost", "energy", "money",
    0.16 / 1000, true, false⟩]

/-- `unitMap` from `src/engine/converter.ts`: id-keyed lookup into the
unit table (the source builds a `Map`; unit ids are distinct, so first
match is the map lookup). -/
def unitMap (id : String) : Option Unit' :=
  units.find? (fun u => u.id == id)

/-- `getDimension` from `src/engine/converter.ts`. -/
def getDimension (e : QuantityEntry) : String :=
  match unitMap e.unitId with
  | some u => u.dimension
  | none => "unknown"

/-- `toBaseValue` from `src/engine/converter.ts`.  The source throws on
an unknown unit id; here the failure is surfaced as `none`.  Every call
site in the engine only reaches it after `getDimension` returned a real
dimension, which guarantees `some`. -/
def toBaseValue (e : QuantityEntry) : Option ℚ :=
  (unitMap e.unitId).map (fun u => e.value * u.toBase)

/-- One conversion step (`ConversionStep` in `src/types.ts`); the
presentational `description` string is omitted. -/
structure ConversionStep where
  rule : ConversionRule
  intermediateValue : ℚ
deriving DecidableEq

/-- A candidate produced by the discovery phase (`Candidate` in
`src/engine/converter.ts`). -/
structure Candidate where
  entry : QuantityEntry
  rawCount : ℚ
  steps : List ConversionStep
  outputBaseValue : ℚ
deriving DecidableEq

/-- `findCandidates` from `src/engine/converter.ts`: all entries
reachable directly (same dimension) or through exactly one conversion
rule (forward, or in reverse when bidirectional), each annotated with
`rawCount` = converted value / entry base value. -/
def findCandidates (inputBaseValue : ℚ) (inputDimension : String)
    (factorOverrides : String → Option ℚ) : List Candidate :=
  (quantities.filterMap fun e =>
    if getDimension e = inputDimension then
      match toBaseValue e with
      | some entryBase =>
        if entryBase ≤ 0 then none
        else some ⟨e, inputBaseValue / entryBase, [], inputBaseValue⟩
      | none => none
    else none)
  ++ (conversionRules.flatMap fun rule =>
    let factor := (factorOverrides rule.id).getD rule.factor
    if rule.fromDimension = inputDimension then
      let convertedValue := inputBaseValue * factor
      quantities.filterMap fun e =>
        if getDimension e = rule.toDimension then
          match toBaseValue e with
          | some entryBase =>
            if entryBase ≤ 0 then none
            else some ⟨e, convertedValue / entryBase,
              [⟨rule, convertedValue⟩], convertedValue⟩
          | none => none
        else none
    else if rule.bidirectional ∧ rule.toDimension = inputDimension then
      let convertedValue := inputBaseValue / factor
      quantities.filterMap fun e =>
        if getDimension e = rule.fromDimension then
          match toBaseValue e with
          | some entryBase =>
            if entryBase ≤ 0 then none
            else some ⟨e, convertedValue / entryBase,
              [⟨rule, convertedValue⟩], convertedValue⟩
          | none => none
        else none
    else [])

/-- The generic selection loop shared by the source's three
"best so far" scans (`pickBestUnder`, its fallback, and the
duration-score loop in `buildAllConversions`): walk the list, keep the
first candidate that strictly improves the key (lower key = better),
skipping candidates the loop does not keepc.  This mirrors
`for (c of cs) if (keepc(c) && key(c) < bestKey) { best = c }`. -/
def bestByStep {α : Type} (keepc : α → Bool) (key : α → ℚ)
    (best : Option α) (c : α) : Option α :=
  if keepc c then
    match best with
    | none => some c
    | some b => if key c < key b then some c else some b
  else best

def bestBy {α : Type} (keepc : α → Bool) (key : α → ℚ) (cs : List α) : Option α :=
  cs.foldl (bestByStep keepc key) none

/-- `pickBestUnder` from `src/engine/converter.ts`: among candidates
with `rawCount ≥ 1` pick the one with the smallest `rawCount`; if none
fits, fall back to the smallest strictly positive `rawCount`. -/
def pickBestUnder (cs : List Candidate) : Option Candidate :=
  let fitting := cs.filter (fun c => decide (1 ≤ c.rawCount))
  if fitting.isEmpty then
    bestBy (fun c => decide (0 < c.rawCount)) (fun c => c.rawCount) cs
  else
    bestBy (fun _ => true) (fun c => c.rawCount) fitting

/-- `MIN_COUNT_THRESHOLD` from `src/engine/converter.ts`. -/
def MIN_COUNT_THRESHOLD : ℚ := 0.1

/-- The count-based selection inlined in `buildAllConversions`: drop
candidates below `MIN_COUNT_THRESHOLD`, skip the group when none
survive, otherwise run `pickBestUnder` on the survivors. -/
def selectCountBased (cs : List Candidate) : Option Candidate :=
  let filtered := cs.filter (fun c => decide (MIN_COUNT_THRESHOLD ≤ c.rawCount))
  if filtered.isEmpty then none else pickBestUnder filtered

/-- `computeDurationHours` from `src/engine/converter.ts`. -/
def computeDurationHours (inputBaseValue : ℚ) (inputDimension : String)
    (entryBaseValue : ℚ) : ℚ :=
  if inputDimension = "energy" then inputBaseValue / entryBaseValue
  else entryBaseValue / inputBaseValue

/-- How many of the two out-of-bounds penalties of `scoreDuration`
apply to a duration (each worth −5 score). -/
def durationPenalty (h : ℚ) : ℕ :=
  (if h < 1 / 60 then 1 else 0) + (if 876600 < h then 1 else 0)

/-- Decidable order-mirror of the source's real-valued `scoreDuration`:
for positive durations, `scoreDuration h₁ < scoreDuration h₂` iff
`durationBadness h₂ < durationBadness h₁` (proved in
`scoreDuration_lt_iff`).  The executable selection compares these
rational values instead of the transcendental scores. -/
def durationBadness (h : ℚ) : ℚ :=
  (max (h / 10) (10 / h)) ^ 3 * 10 ^ (10 * durationPenalty h)

/-- `scoreDuration` from `src/engine/converter.ts`, verbatim over `ℝ`:
`5 − |log₁₀ h − 1| · 1.5`, minus 5 for durations under one minute and
minus 5 for durations over 100 years.  (The source returns −∞ for
`h ≤ 0`; the selection loop models that case by never keeping such a
candidate, which is equivalent because −∞ never strictly exceeds the
running best.) -/
noncomputable def scoreDuration (h : ℚ) : ℝ :=
  5 - |Real.logb 10 (h : ℝ) - 1| * 1.5
    - (if h < 1 / 60 then 5 else 0) - (if 876600 < h then 5 else 0)

/-- The duration-based selection loop of `buildAllConversions`: pick
the candidate whose duration scores highest (equivalently: whose
`durationBadness` is lowest), first wins ties. -/
def selectDurationBased (inputBaseValue : ℚ) (inputDimension : String)
    (cs : List Candidate) : Option Candidate :=
  bestBy
    (fun c => match toBaseValue c.entry with
      | some b => decide (0 < computeDurationHours inputBaseValue inputDimension b)
      | none => false)
    (fun c => durationBadness
      (computeDurationHours inputBaseValue inputDimension ((toBaseValue c.entry).getD 0)))
    cs

/-- An alternatives-list element of a sentence (the anonymous
`{ entry, count, durationHours? }` record in `src/engine/converter.ts`). -/
structure Alternative where
  entry : QuantityEntry
  count : ℚ
  durationHours : Option ℚ
deriving DecidableEq

/-- A conversion sentence (`ConversionSentence` in
`src/engine/converter.ts`). -/
structure ConversionSentence where
  conversionId : String
  conversionName : String
  outputDimension : String
  outputEntry : QuantityEntry
  count : ℚ
  outputUnit : Unit'
  steps : List ConversionStep
  alternatives : List Alternative
  outputBaseValue : ℚ
  durationHours : Option ℚ
deriving DecidableEq

/-- `getDimensionLabel` from `src/engine/converter.ts`. -/
def getDimensionLabel (dim : String) : String :=
  if dim = "power" then "Power"
  else if dim = "energy" then "Energy"
  else if dim = "distance" then "Distance"
  else if dim = "mass" then "Mass"
  else if dim = "money" then "Money"
  else if dim = "time" then "Time"
  else if dim = "temperature" then "Temperature"
  else if dim = "compute" then "Compute"
  else dim

/-- The conversion-path key of a candidate: `'direct'` for hop-less
candidates, otherwise the traversed rule's id (the grouping key used in
`buildAllConversions`). -/
def groupKey (c : Candidate) : String :=
  match c.steps with
  | [] => "direct"
  | s :: _ => s.rule.id

/-- A candidate group of `buildAllConversions` (the map values
`{ name, dimension, steps, candidates }`). -/
structure PathGroup where
  name : String
  dimension : String
  steps : List ConversionStep
  candidates : List Candidate

/-- The group record created when a conversion id is first seen, with
`name`/`dimension`/`steps` taken from that first candidate. -/
def freshGroup (inputDimension : String) (c : Candidate) : PathGroup :=
  { name := match c.steps with
      | [] => getDimensionLabel inputDimension
      | s :: _ => s.rule.name
    dimension := getDimension c.entry
    steps := c.steps
    candidates := [c] }

/-- Insert one candidate into the insertion-ordered group list
(JavaScript `Map` iteration order is insertion order). -/
def insertIntoGroups (inputDimension : String)
    (gs : List (String × PathGroup)) (c : Candidate) : List (String × PathGroup) :=
  if gs.any (fun p => p.1 == groupKey c) then
    gs.map (fun p =>
      if p.1 = groupKey c then
        (p.1, { p.2 with candidates := p.2.candidates ++ [c] })
      else p)
  else gs ++ [(groupKey c, freshGroup inputDimension c)]

/-- Group the candidate list by conversion path, preserving first-seen
key order. -/
def groupsOf (inputDimension : String) (cs : List Candidate) :
    List (String × PathGroup) :=
  cs.foldl (insertIntoGroups inputDimension) []

/-- Lookup a group by key. -/
def lookupGroup (gs : List (String × PathGroup)) (k : String) : Option PathGroup :=
  (gs.find? (fun p => p.1 == k)).map (fun p => p.2)

/-- The source's duration-path test
`group.candidates[0]?.steps[0]?.rule.durationBased === true`. -/
def groupIsDurationBased (cs : List Candidate) : Bool :=
  match cs with
  | [] => false
  | c :: _ =>
    match c.steps with
    | [] => false
    | s :: _ => s.rule.durationBased

/-- Sort key for the alternatives list: the entry's base value
(`toBaseValue`; always `some` for engine-produced candidates). -/
def altSortBase (a : Alternative) : ℚ :=
  (toBaseValue a.entry).getD 0

/-- The alternatives sort of `buildAllConversions`:
`sort((a, b) => bBase - aBase)`, i.e. stable descending by entry base
value (insertion sort is stable, like the JavaScript sort). -/
def sortAlternativesDesc (l : List Alternative) : List Alternative :=
  List.insertionSort (fun a b => altSortBase b ≤ altSortBase a) l

/-- The chosen-candidate resolution of the main loop of
`buildAllConversions`: a user entry override found among the group's
candidates wins; otherwise the duration-based or count-based selector
runs. -/
def chosenOf (inputBaseValue : ℚ) (inputDimension : String)
    (entryOverrides : String → Option String) (convId : String)
    (g : PathGroup) : Option Candidate :=
  let fromOverride : Option Candidate :=
    match entryOverrides convId with
    | some entryId => g.candidates.find? (fun c => c.entry.id == entryId)
    | none => none
  match fromOverride with
  | some c => some c
  | none =>
    if groupIsDurationBased g.candidates then
      selectDurationBased inputBaseValue inputDimension g.candidates
    else
      selectCountBased g.candidates

/-- The sentence construction of the main loop of `buildAllConversions`
for an already chosen candidate.  The unit lookups that the source
performs with the throwing `getUnit`/`toBaseValue` are modelled as
`none` results (unreachable for engine-produced candidates, whose
entries always resolve). -/
def buildSentence (inputBaseValue : ℚ) (inputDimension : String)
    (convId : String) (g : PathGroup) (chosen : Candidate) :
    Option ConversionSentence :=
  match unitMap chosen.entry.unitId with
  | none => none
  | some outputUnit =>
    if groupIsDurationBased g.candidates then
      match toBaseValue chosen.entry with
      | none => none
      | some chosenBase =>
        let chosenDuration :=
          computeDurationHours inputBaseValue inputDimension chosenBase
        let alternatives := sortAlternativesDesc
          ((g.candidates.filterMap fun c =>
              (toBaseValue c.entry).map fun entryBase =>
                Alternative.mk c.entry c.rawCount
                  (some (computeDurationHours inputBaseValue inputDimension entryBase)))
            |>.filter fun a =>
              decide (1 / 60 ≤ (a.durationHours.getD 0)
                ∧ (a.durationHours.getD 0) ≤ 876600))
        some
          { conversionId := convId
            conversionName := g.name
            outputDimension := g.dimension
            outputEntry := chosen.entry
            count := chosen.rawCount
            outputUnit := outputUnit
            steps := chosen.steps
            alternatives := alternatives
            outputBaseValue := chosen.outputBaseValue
            durationHours := some chosenDuration }
    else
      let alternatives := sortAlternativesDesc
        (g.candidates.filter (fun c => decide (MIN_COUNT_THRESHOLD ≤ c.rawCount))
          |>.map fun c => Alternative.mk c.entry c.rawCount none)
      some
        { conversionId := convId
          conversionName := g.name
          outputDimension := g.dimension
          outputEntry := chosen.entry
          count := chosen.rawCount
          outputUnit := outputUnit
          steps := chosen.steps
          alternatives := alternatives
          outputBaseValue := chosen.outputBaseValue
          durationHours := none }

/-- The per-group body of the main loop of `buildAllConversions`:
resolve the chosen candidate, then build the sentence; `none` when the
group is skipped. -/
def processGroup (inputBaseValue : ℚ) (inputDimension : String)
    (entryOverrides : String → Option String) (convId : String)
    (g : PathGroup) : Option ConversionSentence :=
  match chosenOf inputBaseValue inputDimension entryOverrides convId g with
  | none => none
  | some chosen => buildSentence inputBaseValue inputDimension convId g chosen

/-- `buildAllConversions` from `src/engine/converter.ts`: one sentence
per conversion path, `'direct'` first (the source's comparator moves
`'direct'` to the front and leaves the other keys in insertion order;
`Array.prototype.sort` is stable).  The throwing `getUnit` is modelled
with `Except`. -/
def buildAllConversions (inputNumber : ℚ) (inputUnitId : String)
    (factorOverrides : String → Option ℚ)
    (entryOverrides : String → Option String) :
    Except String (List ConversionSentence) :=
  match getUnit inputUnitId with
  | Except.error e => Except.error e
  | Except.ok inputUnit =>
    let inputBaseValue := inputNumber * inputUnit.toBase
    if inputBaseValue ≤ 0 then Except.ok []
    else
      let candidates := findCandidates inputBaseValue inputUnit.dimension factorOverrides
      let groups := groupsOf inputUnit.dimension candidates
      let keys := groups.map (fun p => p.1)
      let sortedKeys :=
        keys.filter (fun k => k == "direct") ++ keys.filter (fun k => k != "direct")
      Except.ok (sortedKeys.filterMap (fun k =>
        match lookupGroup groups k with
        | some g => processGroup inputBaseValue inputUnit.dimension entryOverrides k g
        | none => none))

/-! ### Presentation formatting (`formatNumber`, `formatDuration`) -/

/-- Group a reversed digit list into blocks of three separated by
commas, as `Number.prototype.toLocaleString` does in the default
`en-US` locale. -/
def commaGroupRev : List Char → List Char
  | a :: b :: c :: d :: rest => a :: b :: c :: ',' :: commaGroupRev (d :: rest)
  | l => l

/-- `Number.prototype.toLocaleString` for integers (default `en-US`
locale: thousands separated by commas). -/
def intWithCommas (i : ℤ) : String :=
  (if i < 0 then "-" else "")
    ++ String.mk (commaGroupRev (Nat.repr i.natAbs).data.reverse).reverse

/-- `Math.round`: round half toward positive infinity. -/
def jsRound (q : ℚ) : ℤ := ⌊q + 1 / 2⌋

/-- `Number.prototype.toFixed d` for an exact rational: negate if
negative, round the scaled value to the nearest integer (ties to the
larger integer, per the ECMAScript specification), and render with
exactly `d` fractional digits. -/
def toFixed (q : ℚ) (d : ℕ) : String :=
  let sign := if q < 0 then "-" else ""
  let scaled : ℕ := (⌊|q| * 10 ^ d + 1 / 2⌋).toNat
  let digits := Nat.repr scaled
  let digits :=
    if digits.length ≤ d then
      String.mk (List.replicate (d + 1 - digits.length) '0') ++ digits
    else digits
  if d = 0 then sign ++ digits
  else sign ++ digits.take (digits.length - d) ++ "." ++ digits.drop (digits.length - d)

/-- `formatNumber` from `src/engine/converter.ts`.  `Number.isInteger`
is modelled as denominator 1.  The source's trailing
`n.toExponential(2)` line is unreachable (`n = 0` already returned in
the first branch), so the final case here is the `n < 0` branch. -/
def formatNumber (n : ℚ) : String :=
  if n = 0 then "0"
  else if n.den = 1 ∧ |n| < 10 ^ 15 then intWithCommas n.num
  else if 1000 ≤ |n| then intWithCommas (jsRound n)
  else if 100 ≤ |n| then toFixed n 1
  else if 10 ≤ |n| then toFixed n 1
  else if 1 ≤ |n| then toFixed n 2
  else if 1 / 100 ≤ |n| then toFixed n 3
  else if 0 < n then "< 0.01"
  else "> -0.01"

/-- `formatDuration` from `src/engine/converter.ts`: pick the natural
unit by magnitude (seconds under a minute, minutes under an hour, hours
under 48 h, days under 720 h, months under 8766 h at 730 h/month, else
years at 8766 h/year). -/
def formatDuration (hours : ℚ) : String :=
  if hours < 1 / 60 then formatNumber (hours * 3600) ++ " seconds"
  else if hours < 1 then formatNumber (hours * 60) ++ " minutes"
  else if hours < 48 then formatNumber hours ++ " hours"
  else if hours < 720 then formatNumber (hours / 24) ++ " days"
  else if hours < 8766 then formatNumber (hours / 730) ++ " months"
  else formatNumber (hours / 8766) ++ " years"

/-! ### The factor-override boundary (`useUrlState.ts` and the
`TangleNumber` widget of `ConversionCards.tsx`) -/

/-- `handleFactorChange` from `useUrlState.ts`: the state updater for
the factor-override map.  `none` deletes the rule's override; `some v`
stores `v` for the rule — with no validation of `v`. -/
def handleFactorChange (prev : String → Option ℚ) (ruleId : String)
    (newFactor : Option ℚ) : String → Option ℚ :=
  fun k => if k = ruleId then newFactor else prev k

/-! ### Synthetic fixtures used by the spec's selector test cases -/

/-- A synthetic count-path candidate over an entry of the given base
value (unit `W`, so base value = entry value), for an input base value
of 250, as in the spec's biggest-fit test case. -/
def synthCountCand (id : String) (base : ℚ) : Candidate :=
  ⟨⟨id, id, "🔹", base, "W"⟩, 250 / base, [], 250⟩

/-- The spec's biggest-fit fixture: entries of base value
{1, 10, 100, 1000} against an input base value of 250. -/
def synthCountCandidates : List Candidate :=
  [synthCountCand "e1" 1, synthCountCand "e10" 10,
    synthCountCand "e100" 100, synthCountCand "e1000" 1000]

/-- A synthetic duration-path candidate over a power entry of the given
wattage (unit `W`), for an energy input of 1000 Wh, as in the spec's
duration-readability test case. -/
def synthPowerCand (id : String) (watts : ℚ) : Candidate :=
  ⟨⟨id, id, "🔹", watts, "W"⟩, 1000 / watts, [], 1000⟩

/-- The spec's duration-readability fixture: power entries
{1 W, 100 W, 10000 W} against an energy input of 1000 Wh. -/
def synthDurationCandidates : List Candidate :=
  [synthPowerCand "p1" 1, synthPowerCand "p100" 100, synthPowerCand "p10000" 10000]

/-- The commit handler of the `TangleNumber` inline editor in
`ConversionCards.tsx` (fired on blur/Enter): parse the draft
(`parsed = none` models a `NaN` parse), and only when the parse
succeeded with a strictly positive value invoke the change callback;
otherwise leave the state untouched. -/
def tangleCommit (parsed : Option ℚ) (prev : String → Option ℚ)
    (ruleId : String) : String → Option ℚ :=
  match parsed with
  | some v => if 0 < v then handleFactorChange prev ruleId (some v) else prev
  | none => prev

/-! ## Selection-loop lemmas -/

theorem bestByStep_aux {α : Type} (keepc : α → Bool) (key : α → ℚ) :
    ∀ (cs : List α) (b : α), keepc b = true →
    ∃ r, cs.foldl (bestByStep keepc key) (some b) = some r ∧ (r = b ∨ r ∈ cs) ∧
      keepc r = true ∧ key r ≤ key b ∧ ∀ c ∈ cs, keepc c = true → key r ≤ key c := by
  intro cs
  induction cs with
  | nil =>
    intro b hb
    exact ⟨b, rfl, Or.inl rfl, hb, le_refl _, by simp⟩
  | cons c cs ih =>
    intro b hb
    simp only [List.foldl_cons]
    by_cases hc : keepc c = true
    · by_cases hlt : key c < key b
      · have hstep : bestByStep keepc key (some b) c = some c := by
          simp [bestByStep, hc, hlt]
        rw [hstep]
        obtain ⟨r, hr, hmem, hadm, hle, hmin⟩ := ih c hc
        refine ⟨r, hr, ?_, hadm, le_trans hle (le_of_lt hlt), ?_⟩
        · rcases hmem with h | h
          · exact Or.inr (by simp [h])
          · exact Or.inr (by simp [h])
        · intro x hx hax
          rcases List.mem_cons.mp hx with h | h
          · subst h; exact hle
          · exact hmin x h hax
      · have hstep : bestByStep keepc key (some b) c = some b := by
          simp [bestByStep, hc, hlt]
        rw [hstep]
        obtain ⟨r, hr, hmem, hadm, hle, hmin⟩ := ih b hb
        refine ⟨r, hr, ?_, hadm, hle, ?_⟩
        · rcases hmem with h | h
          · exact Or.inl h
          · exact Or.inr (by simp [h])
        · intro x hx hax
          rcases List.mem_cons.mp hx with h | h
          · subst h; exact le_trans hle (not_lt.mp hlt)
          · exact hmin x h hax
    · have hstep : bestByStep keepc key (some b) c = some b := by
        simp [bestByStep, hc]
      rw [hstep]
      obtain ⟨r, hr, hmem, hadm, hle, hmin⟩ := ih b hb
      refine ⟨r, hr, ?_, hadm, hle, ?_⟩
      · rcases hmem with h | h
        · exact Or.inl h
        · exact Or.inr (by simp [h])
      · intro x hx hax
        rcases List.mem_cons.mp hx with h | h
        · subst h; exact absurd hax hc
        · exact hmin x h hax

theorem bestBy_spec {α : Type} (keepc : α → Bool) (key : α → ℚ) (cs : List α) :
    (bestBy keepc key cs = none ∧ ∀ c ∈ cs, ¬ keepc c = true)
    ∨ ∃ r, bestBy keepc key cs = some r ∧ r ∈ cs ∧ keepc r = true ∧
        ∀ c ∈ cs, keepc c = true → key r ≤ key c := by
  induction cs with
  | nil => exact Or.inl ⟨rfl, by simp⟩
  | cons c cs ih =>
    by_cases hc : keepc c = true
    · right
      have hstep : bestByStep keepc key none c = some c := by
        simp [bestByStep, hc]
      have hunfold : bestBy keepc key (c :: cs)
          = cs.foldl (bestByStep keepc key) (some c) := by
        simp only [bestBy, List.foldl_cons, hstep]
      obtain ⟨r, hr, hmem, hadm, hle, hmin⟩ := bestByStep_aux keepc key cs c hc
      refine ⟨r, by rw [hunfold, hr], ?_, hadm, ?_⟩
      · rcases hmem with h | h
        · exact by simp [h]
        · exact List.mem_cons_of_mem _ h
      · intro x hx hax
        rcases List.mem_cons.mp hx with h | h
        · subst h; exact hle
        · exact hmin x h hax
    · have hstep : bestByStep keepc key none c = none := by
        simp [bestByStep, hc]
      have hunfold : bestBy keepc key (c :: cs) = bestBy keepc key cs := by
        simp only [bestBy, List.foldl_cons, hstep]
      rcases ih with ⟨hnone, hall⟩ | ⟨r, hr, hmem, hadm, hmin⟩
      · left
        refine ⟨by rw [hunfold, hnone], ?_⟩
        intro x hx
        rcases List.mem_cons.mp hx with h | h
        · subst h; exact hc
        · exact hall x h
      · right
        refine ⟨r, by rw [hunfold, hr], List.mem_cons_of_mem _ hmem, hadm, ?_⟩
        intro x hx hax
        rcases List.mem_cons.mp hx with h | h
        · subst h; exact absurd hax hc
        · exact hmin x h hax

theorem bestBy_eq_some {α : Type} {keepc : α → Bool} {key : α → ℚ} {cs : List α}
    {r : α} (h : bestBy keepc key cs = some r) :
    r ∈ cs ∧ keepc r = true ∧ ∀ c ∈ cs, keepc c = true → key r ≤ key c := by
  rcases bestBy_spec keepc key cs with ⟨hnone, _⟩ | ⟨r', hr', hmem, hadm, hmin⟩
  · rw [h] at hnone; exact absurd hnone (by simp)
  · rw [h] at hr'
    obtain rfl := Option.some.inj hr'
    exact ⟨hmem, hadm, hmin⟩

theorem bestBy_isSome {α : Type} {keepc : α → Bool} {key : α → ℚ} {cs : List α}
    (h : ∃ c ∈ cs, keepc c = true) : (bestBy keepc key cs).isSome := by
  rcases bestBy_spec keepc key cs with ⟨_, hall⟩ | ⟨r, hr, _, _, _⟩
  · obtain ⟨c, hc, hac⟩ := h
    exact absurd hac (hall c hc)
  · simp [hr]

/-- The survivors of the count threshold filter. -/
theorem selectCountBased_eq_some {cs : List Candidate} {r : Candidate}
    (h : selectCountBased cs = some r) :
    (r ∈ cs.filter (fun c => decide (MIN_COUNT_THRESHOLD ≤ c.rawCount)))
    ∧ ((∃ c ∈ cs.filter (fun c => decide (MIN_COUNT_THRESHOLD ≤ c.rawCount)),
          1 ≤ c.rawCount) →
        1 ≤ r.rawCount ∧
          ∀ c ∈ cs.filter (fun c => decide (MIN_COUNT_THRESHOLD ≤ c.rawCount)),
            1 ≤ c.rawCount → r.rawCount ≤ c.rawCount)
    ∧ ((∀ c ∈ cs.filter (fun c => decide (MIN_COUNT_THRESHOLD ≤ c.rawCount)),
          c.rawCount < 1) →
        0 < r.rawCount ∧
          ∀ c ∈ cs.filter (fun c => decide (MIN_COUNT_THRESHOLD ≤ c.rawCount)),
            0 < c.rawCount → r.rawCount ≤ c.rawCount) := by
  set f := cs.filter (fun c => decide (MIN_COUNT_THRESHOLD ≤ c.rawCount)) with hf
  simp only [selectCountBased, ← hf] at h
  by_cases hempty : f.isEmpty
  · simp [hempty] at h
  · simp only [hempty, if_false, Bool.false_eq_true] at h
    simp only [pickBestUnder] at h
    set fitting := f.filter (fun c => decide (1 ≤ c.rawCount)) with hfit
    by_cases hfitE : fitting.isEmpty
    · simp only [← hfit, hfitE, if_true] at h
      obtain ⟨hmem, hadm, hmin⟩ := bestBy_eq_some h
      have hpos : 0 < r.rawCount := by
        simpa using hadm
      refine ⟨hmem, ?_, ?_⟩
      · rintro ⟨c, hc, hc1⟩
        have : c ∈ fitting := by
          rw [hfit]
          simp [List.mem_filter, hc, hc1]
        rw [List.isEmpty_iff] at hfitE
        simp [hfitE] at this
      · intro _
        refine ⟨hpos, ?_⟩
        intro c hc hcpos
        exact hmin c hc (by simpa using hcpos)
    · simp only [← hfit, hfitE, if_false, Bool.false_eq_true] at h
      obtain ⟨hmem, _, hmin⟩ := bestBy_eq_some h
      have hrf : r ∈ f := List.mem_of_mem_filter hmem
      have hr1 : 1 ≤ r.rawCount := by
        have := List.of_mem_filter hmem
        simpa using this
      refine ⟨hrf, ?_, ?_⟩
      · intro _
        refine ⟨hr1, ?_⟩
        intro c hc hc1
        have : c ∈ fitting := by
          rw [hfit]; simp [List.mem_filter, hc, hc1]
        exact hmin c this rfl
      · intro hall
        exact absurd hr1 (not_le.mpr (hall r hrf))

theorem selectCountBased_isSome {cs : List Candidate}
    (h : ∃ c ∈ cs, MIN_COUNT_THRESHOLD ≤ c.rawCount) :
    (selectCountBased cs).isSome := by
  obtain ⟨c, hc, hcth⟩ := h
  have hcf : c ∈ cs.filter (fun c => decide (MIN_COUNT_THRESHOLD ≤ c.rawCount)) := by
    simp [List.mem_filter, hc, hcth]
  set f := cs.filter (fun c => decide (MIN_COUNT_THRESHOLD ≤ c.rawCount)) with hf
  have hempty : ¬ f.isEmpty := by
    rw [List.isEmpty_iff]
    intro he
    simp [he] at hcf
  simp only [selectCountBased, ← hf, hempty, if_false, Bool.false_eq_true,
    pickBestUnder]
  set fitting := f.filter (fun c => decide (1 ≤ c.rawCount)) with hfit
  by_cases hfitE : fitting.isEmpty
  · simp only [hfitE, if_true]
    apply bestBy_isSome
    refine ⟨c, hcf, ?_⟩
    have : (0:ℚ) < MIN_COUNT_THRESHOLD := by norm_num [MIN_COUNT_THRESHOLD]
    simpa using lt_of_lt_of_le this hcth
  · simp only [hfitE, if_false, Bool.false_eq_true]
    apply bestBy_isSome
    rw [List.isEmpty_iff] at hfitE
    obtain ⟨x, hx⟩ := List.exists_mem_of_ne_nil fitting hfitE
    exact ⟨x, hx, rfl⟩

/-! ## Claim C1: count-based "biggest fit at or under" selection -/

/-- C1: on every count-based comparison path with no user entry
override, after discarding candidates with ratio below the 0.1
threshold the selector picks, among the surviving candidates with
ratio ≥ 1, one of smallest ratio (closest to 1 from above); if no
survivor has ratio ≥ 1 it picks a survivor with the smallest positive
ratio; a survivor always exists when some candidate meets the
threshold; and on the spec's fixture of base values {1, 10, 100, 1000}
with input base value 250 it picks the base-100 entry (ratio 2.5). -/
theorem count_selector_biggest_fit :
    (∀ (cs : List Candidate) (r : Candidate), selectCountBased cs = some r →
      (r ∈ cs.filter (fun c => decide (MIN_COUNT_THRESHOLD ≤ c.rawCount)))
      ∧ ((∃ c ∈ cs.filter (fun c => decide (MIN_COUNT_THRESHOLD ≤ c.rawCount)),
            1 ≤ c.rawCount) →
          1 ≤ r.rawCount ∧
            ∀ c ∈ cs.filter (fun c => decide (MIN_COUNT_THRESHOLD ≤ c.rawCount)),
              1 ≤ c.rawCount → r.rawCount ≤ c.rawCount)
      ∧ ((∀ c ∈ cs.filter (fun c => decide (MIN_COUNT_THRESHOLD ≤ c.rawCount)),
            c.rawCount < 1) →
          0 < r.rawCount ∧
            ∀ c ∈ cs.filter (fun c => decide (MIN_COUNT_THRESHOLD ≤ c.rawCount)),
              0 < c.rawCount → r.rawCount ≤ c.rawCount))
    ∧ (∀ cs : List Candidate,
        (∃ c ∈ cs, MIN_COUNT_THRESHOLD ≤ c.rawCount) → (selectCountBased cs).isSome)
    ∧ (selectCountBased synthCountCandidates).map (fun c => c.entry.id) = some "e100"
    ∧ (selectCountBased synthCountCandidates).map (fun c => c.rawCount)
        = some (5 / 2) := by
  refine ⟨?_, ?_, ?_, ?_⟩
  · intro cs r h
    exact selectCountBased_eq_some h
  · intro cs h
    exact selectCountBased_isSome h
  · with_unfolding_all rfl
  · with_unfolding_all rfl

/-- Witness for C1: the general clauses applied to the spec fixture. -/
theorem count_selector_biggest_fit_witness :
    ∃ r, selectCountBased synthCountCandidates = some r ∧ 1 ≤ r.rawCount ∧
      (∀ c ∈ synthCountCandidates.filter
          (fun c => decide (MIN_COUNT_THRESHOLD ≤ c.rawCount)),
        1 ≤ c.rawCount → r.rawCount ≤ c.rawCount) ∧
      (selectCountBased synthCountCandidates).isSome := by
  have hsel : selectCountBased synthCountCandidates = some (synthCountCand "e100" 100) := by
    with_unfolding_all rfl
  have hmem1 : synthCountCand "e1" 1 ∈ synthCountCandidates :=
    List.mem_cons_self _ _
  have hfit : ∃ c ∈ synthCountCandidates.filter
      (fun c => decide (MIN_COUNT_THRESHOLD ≤ c.rawCount)), 1 ≤ c.rawCount :=
    ⟨synthCountCand "e1" 1,
      List.mem_filter.mpr ⟨hmem1, by with_unfolding_all rfl⟩,
      of_decide_eq_true (by with_unfolding_all rfl)⟩
  have hmain :=
    (count_selector_biggest_fit.1 synthCountCandidates (synthCountCand "e100" 100) hsel).2.1 hfit
  have hsome := count_selector_biggest_fit.2.1 synthCountCandidates
    ⟨synthCountCand "e1" 1, hmem1, of_decide_eq_true (by with_unfolding_all rfl)⟩
  exact ⟨synthCountCand "e100" 100, hsel, hmain.1, hmain.2, hsome⟩

/-! ## Claim C8: linearity of candidate discovery -/

theorem findCandidates_double (v : ℚ) (dim : String) (fo : String → Option ℚ) :
    findCandidates (2 * v) dim fo = (findCandidates v dim fo).map
      (fun c => ⟨c.entry, 2 * c.rawCount,
        c.steps.map (fun st => ⟨st.rule, 2 * st.intermediateValue⟩),
        2 * c.outputBaseValue⟩) := by
  simp only [findCandidates, List.map_append, List.map_filterMap, List.map_flatMap]
  congr 1
  · apply List.filterMap_congr
    intro e _
    by_cases hd : getDimension e = dim
    · rw [if_pos hd, if_pos hd]
      cases hb : toBaseValue e with
      | none => rfl
      | some b =>
        dsimp only
        by_cases hle : b ≤ 0
        · rw [if_pos hle, if_pos hle]
          rfl
        · rw [if_neg hle, if_neg hle, Option.map_some']
          simp [Candidate.mk.injEq, ConversionStep.mk.injEq, mul_div_assoc, mul_assoc]
    · rw [if_neg hd, if_neg hd]
      rfl
  · apply List.flatMap_congr
    intro rule _
    by_cases hf : rule.fromDimension = dim
    · rw [if_pos hf, if_pos hf, List.map_filterMap]
      apply List.filterMap_congr
      intro e _
      by_cases hd : getDimension e = rule.toDimension
      · rw [if_pos hd, if_pos hd]
        cases hb : toBaseValue e with
        | none => rfl
        | some b =>
          dsimp only
          by_cases hle : b ≤ 0
          · rw [if_pos hle, if_pos hle]
            rfl
          · rw [if_neg hle, if_neg hle, Option.map_some']
            simp [Candidate.mk.injEq, ConversionStep.mk.injEq, mul_div_assoc, mul_assoc]
      · rw [if_neg hd, if_neg hd]
        rfl
    · by_cases hr : (rule.bidirectional : Prop) ∧ rule.toDimension = dim
      · rw [if_neg hf, if_neg hf, if_pos hr, if_pos hr, List.map_filterMap]
        apply List.filterMap_congr
        intro e _
        by_cases hd : getDimension e = rule.fromDimension
        · rw [if_pos hd, if_pos hd]
          cases hb : toBaseValue e with
          | none => rfl
          | some b =>
            dsimp only
            by_cases hle : b ≤ 0
            · rw [if_pos hle, if_pos hle]
              rfl
            · rw [if_neg hle, if_neg hle, Option.map_some']
              simp [Candidate.mk.injEq, ConversionStep.mk.injEq, mul_div_assoc, mul_assoc]
        · rw [if_neg hd, if_neg hd]
          rfl
      · rw [if_neg hf, if_neg hf, if_neg hr, if_neg hr]
        rfl

/-- C8: candidate discovery is linear in the input: doubling the input
base value leaves the discovered entries unchanged and exactly doubles
every candidate's ratio, on the direct path and on every one-hop
(forward or reverse) path alike. -/
theorem candidate_ratio_linearity :
    ∀ (v : ℚ) (dim : String) (fo : String → Option ℚ),
      ((findCandidates (2 * v) dim fo).map (fun c => c.entry)
        = (findCandidates v dim fo).map (fun c => c.entry))
      ∧ ((findCandidates (2 * v) dim fo).map (fun c => c.rawCount)
        = (findCandidates v dim fo).map (fun c => 2 * c.rawCount)) := by
  intro v dim fo
  rw [findCandidates_double]
  constructor
  · rw [List.map_map]
    rfl
  · rw [List.map_map]
    rfl

/-! ## Claim C7: the factor-override boundary -/

/-- C7 counterexample: `handleFactorChange` (the override-setting
boundary) applied to the non-positive factor −5 stores it, discarding
the previously stored override 7 — the claimed rejection does not
happen there. -/
theorem override_boundary_cex :
    handleFactorChange
        (fun k => if k = "energy-to-distance-tesla" then some 7 else none)
        "energy-to-distance-tesla" (some (-5)) "energy-to-distance-tesla"
      = some (-5)
    ∧ handleFactorChange
        (fun k => if k = "energy-to-distance-tesla" then some 7 else none)
        "energy-to-distance-tesla" (some (-5)) "energy-to-distance-tesla"
      ≠ some 7 := by
  constructor
  · simp [handleFactorChange]
  · simp only [handleFactorChange, if_pos rfl]
    intro h
    have := Option.some.inj h
    norm_num at this

/-- C7 (amended): the override-setting boundary `handleFactorChange`
itself performs no validation — it stores any supplied value (and
`none` removes the override); the rejection of non-positive or
unparsable values happens one layer up, at the UI input boundary
(`tangleCommit`), which invokes the setter only for a successfully
parsed strictly positive value and otherwise leaves the stored
overrides untouched. -/
theorem override_boundary :
    (∀ (prev : String → Option ℚ) (ruleId : String) (v : ℚ),
        handleFactorChange prev ruleId (some v) ruleId = some v)
    ∧ (∀ (prev : String → Option ℚ) (ruleId : String),
        handleFactorChange prev ruleId none ruleId = none)
    ∧ (∀ (prev : String → Option ℚ) (ruleId : String) (k : String),
        k ≠ ruleId → handleFactorChange prev ruleId none k = prev k)
    ∧ (∀ (prev : String → Option ℚ) (ruleId : String) (parsed : Option ℚ),
        (∀ v, parsed = some v → v ≤ 0) → tangleCommit parsed prev ruleId = prev)
    ∧ (∀ (prev : String → Option ℚ) (ruleId : String) (v : ℚ),
        0 < v → tangleCommit (some v) prev ruleId
          = handleFactorChange prev ruleId (some v)) := by
  refine ⟨?_, ?_, ?_, ?_, ?_⟩
  · intro prev ruleId v
    simp [handleFactorChange]
  · intro prev ruleId
    simp [handleFactorChange]
  · intro prev ruleId k hk
    simp [handleFactorChange, hk]
  · intro prev ruleId parsed hval
    cases parsed with
    | none => rfl
    | some v =>
      have hv : v ≤ 0 := hval v rfl
      simp [tangleCommit, not_lt.mpr hv]
  · intro prev ruleId v hv
    simp [tangleCommit, hv]

/-- Witness for C7 (amended): a rejected non-positive edit leaves the
previous override for the Tesla rule in place, while `handleFactorChange`
itself would store it. -/
theorem override_boundary_witness :
    tangleCommit (some (-3))
        (fun k => if k = "energy-to-distance-tesla" then some 7 else none)
        "energy-to-distance-tesla"
      = (fun k => if k = "energy-to-distance-tesla" then some 7 else none)
    ∧ handleFactorChange (fun _ => none) "energy-to-distance-tesla" (some 5)
        "energy-to-distance-tesla" = some 5 := by
  constructor
  · exact override_boundary.2.2.2.1 _ _ (some (-3))
      (fun v hv => by
        obtain rfl := Option.some.inj hv
        norm_num)
  · exact override_boundary.1 _ _ 5

/-! ## Claim C9: formatDuration unit boundaries -/

/-- C9: `formatDuration` picks its unit by magnitude with exact
boundaries 1/60, 1, 48, 720 and 8766 hours, dividing by 24, 730 and
8766 for days, months and years respectively; in particular 48 hours
renders as a days-based string and 47.99 hours as an hours-based
string. -/
theorem formatDuration_boundaries :
    (∀ h : ℚ,
      (h < 1 / 60 → formatDuration h = formatNumber (h * 3600) ++ " seconds")
      ∧ (1 / 60 ≤ h → h < 1 → formatDuration h = formatNumber (h * 60) ++ " minutes")
      ∧ (1 ≤ h → h < 48 → formatDuration h = formatNumber h ++ " hours")
      ∧ (48 ≤ h → h < 720 → formatDuration h = formatNumber (h / 24) ++ " days")
      ∧ (720 ≤ h → h < 8766 → formatDuration h = formatNumber (h / 730) ++ " months")
      ∧ (8766 ≤ h → formatDuration h = formatNumber (h / 8766) ++ " years"))
    ∧ formatDuration 48 = "2 days"
    ∧ formatDuration (47.99 : ℚ) = "48.0 hours" := by
  refine ⟨?_, ?_, ?_⟩
  · intro h
    refine ⟨?_, ?_, ?_, ?_, ?_, ?_⟩
    · intro h1
      simp only [formatDuration]
      rw [if_pos h1]
    · intro h1 h2
      simp only [formatDuration]
      rw [if_neg (by linarith), if_pos h2]
    · intro h1 h2
      simp only [formatDuration]
      rw [if_neg (by linarith), if_neg (by linarith), if_pos h2]
    · intro h1 h2
      simp only [formatDuration]
      rw [if_neg (by linarith), if_neg (by linarith), if_neg (by linarith), if_pos h2]
    · intro h1 h2
      simp only [formatDuration]
      rw [if_neg (by linarith), if_neg (by linarith), if_neg (by linarith),
        if_neg (by linarith), if_pos h2]
    · intro h1
      simp only [formatDuration]
      rw [if_neg (by linarith), if_neg (by linarith), if_neg (by linarith),
        if_neg (by linarith), if_neg (by linarith)]
  · with_unfolding_all rfl
  · with_unfolding_all rfl

/-- Witness for C9: the days equation applied at 100 hours. -/
theorem formatDuration_boundaries_witness :
    formatDuration 100 = formatNumber (100 / 24) ++ " days" :=
  ((formatDuration_boundaries.1 100).2.2.2.1 (by norm_num) (by norm_num))

/-! ## The score/badness order equivalence and claim C2 -/

theorem abs_logb_sub_one (x : ℝ) (hx : 0 < x) :
    |Real.logb 10 x - 1| = Real.logb 10 (max (x / 10) (10 / x)) := by
  have h10 : (1:ℝ) < 10 := by norm_num
  have hx10 : (0:ℝ) < x / 10 := by positivity
  have hsub : Real.logb 10 x - 1 = Real.logb 10 (x / 10) := by
    rw [Real.logb_div (ne_of_gt hx) (by norm_num), Real.logb_self_eq_one h10]
  rw [hsub]
  rcases le_total 1 (x / 10) with h1 | h1
  · rw [abs_of_nonneg (Real.logb_nonneg h10 h1)]
    congr 1
    rw [max_eq_left]
    have hx10' : (10:ℝ) ≤ x := by
      rw [le_div_iff₀ (by norm_num : (0:ℝ) < 10)] at h1
      linarith
    have h2 : 10 / x ≤ 1 := by
      rw [div_le_one hx]
      exact hx10'
    linarith
  · have hlog_le : Real.logb 10 (x / 10) ≤ 0 :=
      Real.logb_nonpos h10 (le_of_lt hx10) h1
    rw [abs_of_nonpos hlog_le, ← Real.logb_inv]
    congr 1
    rw [max_eq_right]
    · rw [inv_div]
    · have hxle : x ≤ 10 := by
        rw [div_le_one (by norm_num : (0:ℝ) < 10)] at h1
        exact h1
      have h2 : (1:ℝ) ≤ 10 / x := by
        rw [le_div_iff₀ hx]
        linarith
      linarith

theorem durationBadness_pos {h : ℚ} (hp : 0 < h) : 0 < durationBadness h := by
  have hM : 0 < max (h / 10) (10 / h) :=
    lt_max_of_lt_left (by positivity)
  have : (0:ℚ) < 10 ^ (10 * durationPenalty h) := by positivity
  exact mul_pos (by positivity) this

theorem logb_durationBadness (h : ℚ) (hp : 0 < h) :
    Real.logb 10 ((durationBadness h : ℚ) : ℝ)
      = 3 * |Real.logb 10 (h : ℝ) - 1| + 10 * (durationPenalty h : ℝ) := by
  have h10 : (1:ℝ) < 10 := by norm_num
  have hpR : (0:ℝ) < (h : ℝ) := by exact_mod_cast hp
  have hM : (0:ℝ) < max ((h:ℝ) / 10) (10 / (h:ℝ)) :=
    lt_max_of_lt_left (by positivity)
  have hcast : ((durationBadness h : ℚ) : ℝ)
      = (max ((h:ℝ) / 10) (10 / (h:ℝ))) ^ 3 * 10 ^ (10 * durationPenalty h) := by
    simp only [durationBadness]
    push_cast
    ring_nf
  rw [hcast, Real.logb_mul (by positivity) (by positivity),
    Real.logb_pow, Real.logb_pow, Real.logb_self_eq_one h10,
    abs_logb_sub_one (h:ℝ) hpR]
  push_cast
  ring

theorem scoreDuration_eq (h : ℚ) :
    scoreDuration h
      = 5 - (3 * |Real.logb 10 (h : ℝ) - 1| + 10 * (durationPenalty h : ℝ)) / 2 := by
  simp only [scoreDuration, durationPenalty]
  by_cases h1 : h < 1 / 60 <;> by_cases h2 : 876600 < h
  · simp only [if_pos h1, if_pos h2]
    push_cast
    ring
  · simp only [if_pos h1, if_neg h2]
    push_cast
    ring
  · simp only [if_neg h1, if_pos h2]
    push_cast
    ring
  · simp only [if_neg h1, if_neg h2]
    push_cast
    ring

theorem scoreDuration_lt_iff {h₁ h₂ : ℚ} (hp₁ : 0 < h₁) (hp₂ : 0 < h₂) :
    scoreDuration h₁ < scoreDuration h₂ ↔ durationBadness h₂ < durationBadness h₁ := by
  have h10 : (1:ℝ) < 10 := by norm_num
  have hb₁ : (0:ℝ) < ((durationBadness h₁ : ℚ) : ℝ) := by
    exact_mod_cast durationBadness_pos hp₁
  have hb₂ : (0:ℝ) < ((durationBadness h₂ : ℚ) : ℝ) := by
    exact_mod_cast durationBadness_pos hp₂
  rw [scoreDuration_eq, scoreDuration_eq]
  have hlt : (5:ℝ) - (3 * |Real.logb 10 (h₁ : ℝ) - 1| + 10 * (durationPenalty h₁ : ℝ)) / 2
      < 5 - (3 * |Real.logb 10 (h₂ : ℝ) - 1| + 10 * (durationPenalty h₂ : ℝ)) / 2
      ↔ 3 * |Real.logb 10 (h₂ : ℝ) - 1| + 10 * (durationPenalty h₂ : ℝ)
        < 3 * |Real.logb 10 (h₁ : ℝ) - 1| + 10 * (durationPenalty h₁ : ℝ) := by
    constructor <;> intro <;> linarith
  rw [hlt, ← logb_durationBadness h₁ hp₁, ← logb_durationBadness h₂ hp₂,
    Real.logb_lt_logb_iff h10 hb₂ hb₁]
  exact_mod_cast Iff.rfl

theorem scoreDuration_le_iff {h₁ h₂ : ℚ} (hp₁ : 0 < h₁) (hp₂ : 0 < h₂) :
    scoreDuration h₁ ≤ scoreDuration h₂ ↔ durationBadness h₂ ≤ durationBadness h₁ := by
  rw [← not_lt, ← not_lt, scoreDuration_lt_iff hp₂ hp₁]

theorem selectDurationBased_eq_some {ibv : ℚ} {dim : String} {cs : List Candidate}
    {r : Candidate} (h : selectDurationBased ibv dim cs = some r) :
    r ∈ cs
    ∧ (∃ br, toBaseValue r.entry = some br ∧ 0 < computeDurationHours ibv dim br)
    ∧ ∀ c ∈ cs, ∀ bc br, toBaseValue c.entry = some bc →
        toBaseValue r.entry = some br →
        0 < computeDurationHours ibv dim bc →
        durationBadness (computeDurationHours ibv dim br)
          ≤ durationBadness (computeDurationHours ibv dim bc) := by
  obtain ⟨hmem, hadm, hmin⟩ := bestBy_eq_some h
  have hr : ∃ br, toBaseValue r.entry = some br ∧ 0 < computeDurationHours ibv dim br := by
    cases hb : toBaseValue r.entry with
    | none => rw [hb] at hadm; simp at hadm
    | some br =>
      rw [hb] at hadm
      exact ⟨br, rfl, of_decide_eq_true hadm⟩
  refine ⟨hmem, hr, ?_⟩
  intro c hc bc br hbc hbr hdc
  have hadmc : (match toBaseValue c.entry with
      | some b => decide (0 < computeDurationHours ibv dim b)
      | none => false) = true := by
    rw [hbc]
    exact decide_eq_true hdc
  have := hmin c hc hadmc
  rw [hbr, hbc] at this
  simpa using this

/-- C2: on every duration-based comparison path with no user entry
override, the duration of a candidate with entry base value `b` is
`inputBaseValue / b` for an energy input and `b / inputBaseValue` for a
power input; the selected candidate maximizes the source's duration
score `scoreDuration` (closeness to 10 hours in log₁₀ space, with the
out-of-bounds penalties) among the candidates of positive duration; and
on the spec fixture of power entries {1 W, 100 W, 10000 W} against an
energy input of 1000 Wh it selects the 100 W entry (duration exactly
10 hours). -/
theorem duration_selector_readability :
    (∀ (ibv : ℚ) (b : ℚ),
      computeDurationHours ibv "energy" b = ibv / b
      ∧ computeDurationHours ibv "power" b = b / ibv)
    ∧ (∀ (ibv : ℚ) (dim : String) (cs : List Candidate) (r : Candidate),
        selectDurationBased ibv dim cs = some r →
        r ∈ cs ∧
          ∀ c ∈ cs, ∀ bc br, toBaseValue c.entry = some bc →
            toBaseValue r.entry = some br →
            0 < computeDurationHours ibv dim bc →
            0 < computeDurationHours ibv dim br →
            scoreDuration (computeDurationHours ibv dim bc)
              ≤ scoreDuration (computeDurationHours ibv dim br))
    ∧ (selectDurationBased 1000 "energy" synthDurationCandidates).map
        (fun c => c.entry.id) = some "p100"
    ∧ (selectDurationBased 1000 "energy" synthDurationCandidates).map
        (fun c => computeDurationHours 1000 "energy"
          ((toBaseValue c.entry).getD 0)) = some 10 := by
  refine ⟨?_, ?_, ?_, ?_⟩
  · intro ibv b
    constructor
    · simp [computeDurationHours]
    · simp [computeDurationHours]
  · intro ibv dim cs r h
    obtain ⟨hmem, _, hmin⟩ := selectDurationBased_eq_some h
    refine ⟨hmem, ?_⟩
    intro c hc bc br hbc hbr hdc hdr
    exact (scoreDuration_le_iff hdc hdr).mpr (hmin c hc bc br hbc hbr hdc)
  · with_unfolding_all rfl
  · with_unfolding_all rfl

/-- Witness for C2: the score-maximality clause applied to the spec
fixture, instantiated at the 1 W candidate (duration 1000 h): the
selected 100 W candidate (duration 10 h) scores at least as high. -/
theorem duration_selector_readability_witness :
    ∃ r, selectDurationBased 1000 "energy" synthDurationCandidates = some r
      ∧ r ∈ synthDurationCandidates
      ∧ scoreDuration (computeDurationHours 1000 "energy" 1)
          ≤ scoreDuration (computeDurationHours 1000 "energy" 100)
      ∧ computeDurationHours 1000 "energy" 1 = 1000 / 1 := by
  have hsel : selectDurationBased 1000 "energy" synthDurationCandidates
      = some (synthPowerCand "p100" 100) := by
    with_unfolding_all rfl
  obtain ⟨hmem, hscore⟩ := duration_selector_readability.2.1 1000 "energy"
    synthDurationCandidates (synthPowerCand "p100" 100) hsel
  have hb1 : toBaseValue (synthPowerCand "p1" 1).entry = some 1 := by
    with_unfolding_all rfl
  have hb100 : toBaseValue (synthPowerCand "p100" 100).entry = some 100 := by
    with_unfolding_all rfl
  have hd1 : (0:ℚ) < computeDurationHours 1000 "energy" 1 :=
    of_decide_eq_true (by with_unfolding_all rfl)
  have hd100 : (0:ℚ) < computeDurationHours 1000 "energy" 100 :=
    of_decide_eq_true (by with_unfolding_all rfl)
  have hmem1 : synthPowerCand "p1" 1 ∈ synthDurationCandidates :=
    List.mem_cons_self _ _
  refine ⟨synthPowerCand "p100" 100, hsel, hmem, ?_, ?_⟩
  · exact hscore (synthPowerCand "p1" 1) hmem1 1 100 hb1 hb100 hd1 hd100
  · exact (duration_selector_readability.1 1000 1).1

/-! ## Grouping lemmas -/

theorem lookupGroup_insert (d : String) (gs : List (String × PathGroup))
    (c : Candidate) (k : String) :
    lookupGroup (insertIntoGroups d gs c) k =
      if groupKey c = k then
        match lookupGroup gs k with
        | some g => some { g with candidates := g.candidates ++ [c] }
        | none => some (freshGroup d c)
      else lookupGroup gs k := by
  by_cases hany : gs.any (fun p => p.1 == groupKey c)
  · simp only [insertIntoGroups, hany, if_true]
    have hcomp : ∀ p : String × PathGroup,
        (((fun p : String × PathGroup => p.1 == k) ∘
          (fun p : String × PathGroup =>
            if p.1 = groupKey c then
              (p.1, { p.2 with candidates := p.2.candidates ++ [c] })
            else p)) p) = (p.1 == k) := by
      intro p
      by_cases hp : p.1 = groupKey c <;> simp [hp]
    simp only [lookupGroup, List.find?_map]
    rw [show ((fun p : String × PathGroup => p.1 == k) ∘
        (fun p : String × PathGroup =>
          if p.1 = groupKey c then
            (p.1, { p.2 with candidates := p.2.candidates ++ [c] })
          else p)) = (fun p : String × PathGroup => p.1 == k) from funext hcomp]
    by_cases hk : groupKey c = k
    · subst hk
      have hsome : (gs.find? (fun p => p.1 == groupKey c)).isSome := by
        rw [List.find?_isSome]
        simpa [List.any_eq_true] using hany
      obtain ⟨p₀, hp₀⟩ := Option.isSome_iff_exists.mp hsome
      have hp₀1 : p₀.1 = groupKey c := by
        have := List.find?_some hp₀
        simpa using this
      rw [if_pos rfl, hp₀]
      simp [hp₀1]
    · rw [if_neg hk]
      cases hf : gs.find? (fun p => p.1 == k) with
      | none => simp
      | some p₀ =>
        have hp₀1 : p₀.1 = k := by
          have := List.find?_some hf
          simpa using this
        have hne : ¬ p₀.1 = groupKey c := by
          rw [hp₀1]
          exact fun hh => hk hh.symm
        simp [hne]
  · simp only [insertIntoGroups, hany, if_false, Bool.false_eq_true]
    simp only [lookupGroup, List.find?_append]
    by_cases hk : groupKey c = k
    · subst hk
      have hnone : gs.find? (fun p => p.1 == groupKey c) = none := by
        rw [List.find?_eq_none]
        intro p hp
        intro hpk
        exact hany (List.any_eq_true.mpr ⟨p, hp, hpk⟩)
      rw [if_pos rfl, hnone]
      simp [hnone]
    · rw [if_neg hk]
      have hne : ((groupKey c == k) : Bool) = false := by
        simpa using hk
      cases hf : gs.find? (fun p => p.1 == k) with
      | none => simp [List.find?, hne]
      | some p₀ => simp

theorem lookupGroup_groupsOf (d : String) (cs : List Candidate) (k : String) :
    lookupGroup (groupsOf d cs) k =
      match cs.filter (fun c => groupKey c == k) with
      | [] => none
      | c :: rest => some { freshGroup d c with candidates := c :: rest } := by
  induction cs using List.reverseRecOn with
  | nil => simp [groupsOf, lookupGroup]
  | append_singleton cs c ih =>
    have hstep : groupsOf d (cs ++ [c]) = insertIntoGroups d (groupsOf d cs) c := by
      simp [groupsOf, List.foldl_append]
    rw [hstep, lookupGroup_insert, List.filter_append]
    by_cases hk : groupKey c = k
    · rw [if_pos hk, ih]
      have hfc : List.filter (fun c => groupKey c == k) [c] = [c] := by
        simp [hk]
      rw [hfc]
      cases hfilter : cs.filter (fun c => groupKey c == k) with
      | nil => simp [freshGroup]
      | cons c0 rest => simp
    · rw [if_neg hk, ih]
      have hfc : List.filter (fun c => groupKey c == k) [c] = [] := by
        simp [hk]
      rw [hfc, List.append_nil]

theorem lookupGroup_groupsOf_candidates {d : String} {cs : List Candidate}
    {k : String} {g : PathGroup}
    (h : lookupGroup (groupsOf d cs) k = some g) :
    g.candidates = cs.filter (fun c => groupKey c == k) := by
  rw [lookupGroup_groupsOf] at h
  cases hfilter : cs.filter (fun c => groupKey c == k) with
  | nil => rw [hfilter] at h; exact absurd h (by simp)
  | cons c0 rest =>
    rw [hfilter] at h
    obtain rfl := Option.some.inj h.symm
    rfl

theorem mem_keys_iff_lookup (gs : List (String × PathGroup)) (k : String) :
    k ∈ gs.map (fun p => p.1) ↔ (lookupGroup gs k).isSome := by
  simp only [lookupGroup, Option.isSome_map', List.find?_isSome, List.mem_map,
    beq_iff_eq]

/-! ## Structure of `buildAllConversions` results -/

theorem buildAll_ok_nonpos {n : ℚ} {uid : String} {u : Unit'}
    (fo : String → Option ℚ) (eo : String → Option String)
    (hu : getUnit uid = Except.ok u) (hle : n * u.toBase ≤ 0) :
    buildAllConversions n uid fo eo = Except.ok [] := by
  simp only [buildAllConversions, hu, hle, if_pos]

theorem buildAll_unknown_unit {n : ℚ} {uid : String}
    (fo : String → Option ℚ) (eo : String → Option String)
    (hu : units.find? (fun x => x.id == uid) = none) :
    buildAllConversions n uid fo eo = Except.error ("Unknown unit: " ++ uid) := by
  have hgu : getUnit uid = Except.error ("Unknown unit: " ++ uid) := by
    simp only [getUnit, hu]
  simp only [buildAllConversions, hgu]

theorem mem_buildAll_iff {n : ℚ} {uid : String} {fo : String → Option ℚ}
    {eo : String → Option String} {u : Unit'} {s : ConversionSentence}
    (hu : getUnit uid = Except.ok u) (hpos : ¬ (n * u.toBase ≤ 0)) :
    s ∈ (buildAllConversions n uid fo eo).toOption.getD [] ↔
      ∃ k g, lookupGroup (groupsOf u.dimension
          (findCandidates (n * u.toBase) u.dimension fo)) k = some g
        ∧ processGroup (n * u.toBase) u.dimension eo k g = some s := by
  simp only [buildAllConversions, hu, hpos, if_false, Bool.false_eq_true, if_neg hpos]
  simp only [Except.toOption, Option.getD_some, List.mem_filterMap]
  constructor
  · rintro ⟨k, hk, hF⟩
    cases hl : lookupGroup (groupsOf u.dimension
        (findCandidates (n * u.toBase) u.dimension fo)) k with
    | none => rw [hl] at hF; exact absurd hF (by simp)
    | some g =>
      rw [hl] at hF
      exact ⟨k, g, hl, hF⟩
  · rintro ⟨k, g, hl, hp⟩
    refine ⟨k, ?_, ?_⟩
    · have hkin : k ∈ (groupsOf u.dimension
          (findCandidates (n * u.toBase) u.dimension fo)).map (fun p => p.1) := by
        rw [mem_keys_iff_lookup, hl]
        rfl
      by_cases hdir : k = "direct"
      · apply List.mem_append_left
        rw [List.mem_filter]
        exact ⟨hkin, by simp [hdir]⟩
      · apply List.mem_append_right
        rw [List.mem_filter]
        refine ⟨hkin, by simpa using hdir⟩
    · rw [hl]
      exact hp

theorem mem_buildAll_elim {n : ℚ} {uid : String} {fo : String → Option ℚ}
    {eo : String → Option String} {s : ConversionSentence}
    (h : s ∈ (buildAllConversions n uid fo eo).toOption.getD []) :
    ∃ u, getUnit uid = Except.ok u ∧ ¬ (n * u.toBase ≤ 0)
      ∧ ∃ k g, lookupGroup (groupsOf u.dimension
          (findCandidates (n * u.toBase) u.dimension fo)) k = some g
        ∧ processGroup (n * u.toBase) u.dimension eo k g = some s := by
  cases hu : getUnit uid with
  | error e =>
    rw [buildAllConversions] at h
    rw [hu] at h
    simp [Except.toOption] at h
  | ok u =>
    by_cases hle : n * u.toBase ≤ 0
    · rw [buildAll_ok_nonpos fo eo hu hle] at h
      simp [Except.toOption] at h
    · exact ⟨u, rfl, hle, (mem_buildAll_iff hu hle).mp h⟩

/-! ## Per-group processing lemmas -/

theorem mem_sortAlternativesDesc {a : Alternative} {l : List Alternative} :
    a ∈ sortAlternativesDesc l ↔ a ∈ l :=
  (List.perm_insertionSort _ l).mem_iff

theorem mem_scan {target : String} {cv : ℚ} {steps : List ConversionStep}
    {c : Candidate}
    (h : c ∈ quantities.filterMap (fun e =>
      if getDimension e = target then
        match toBaseValue e with
        | some entryBase =>
          if entryBase ≤ 0 then none
          else some ⟨e, cv / entryBase, steps, cv⟩
        | none => none
      else none)) :
    ∃ e b, toBaseValue e = some b ∧ 0 < b ∧ getDimension e = target
      ∧ c = ⟨e, cv / b, steps, cv⟩ := by
  rw [List.mem_filterMap] at h
  obtain ⟨e, _, he⟩ := h
  by_cases hd : getDimension e = target
  · rw [if_pos hd] at he
    cases hb : toBaseValue e with
    | none => rw [hb] at he; exact absurd he (by simp)
    | some b =>
      rw [hb] at he
      dsimp only at he
      by_cases hle : b ≤ 0
      · rw [if_pos hle] at he; cases he
      · rw [if_neg hle] at he
        obtain rfl := Option.some.inj he
        exact ⟨e, b, hb, not_le.mp hle, hd, rfl⟩
  · rw [if_neg hd] at he
    cases he

theorem findCandidates_base {v : ℚ} {dim : String} {fo : String → Option ℚ}
    {c : Candidate} (h : c ∈ findCandidates v dim fo) :
    ∃ b, toBaseValue c.entry = some b ∧ 0 < b := by
  simp only [findCandidates, List.mem_append, List.mem_flatMap] at h
  rcases h with h | ⟨rule, _, he⟩
  · obtain ⟨e, b, hb, hbpos, _, rfl⟩ := mem_scan h
    exact ⟨b, hb, hbpos⟩
  · by_cases hf : rule.fromDimension = dim
    · rw [if_pos hf] at he
      obtain ⟨e, b, hb, hbpos, _, rfl⟩ := mem_scan he
      exact ⟨b, hb, hbpos⟩
    · by_cases hrb : (rule.bidirectional : Prop) ∧ rule.toDimension = dim
      · rw [if_neg hf, if_pos hrb] at he
        obtain ⟨e, b, hb, hbpos, _, rfl⟩ := mem_scan he
        exact ⟨b, hb, hbpos⟩
      · rw [if_neg hf, if_neg hrb] at he
        cases he

theorem computeDurationHours_pos {ibv b : ℚ} (dim : String)
    (hi : 0 < ibv) (hb : 0 < b) : 0 < computeDurationHours ibv dim b := by
  unfold computeDurationHours
  by_cases hd : dim = "energy"
  · rw [if_pos hd]
    exact div_pos hi hb
  · rw [if_neg hd]
    exact div_pos hb hi

theorem chosenOf_override {ibv : ℚ} {dim : String} {eo : String → Option String}
    {k : String} {g : PathGroup} {eid : String} {c : Candidate}
    (heo : eo k = some eid)
    (hfind : g.candidates.find? (fun x => x.entry.id == eid) = some c) :
    chosenOf ibv dim eo k g = some c := by
  simp only [chosenOf, heo, hfind]

theorem chosenOf_no_override {ibv : ℚ} {dim : String} {eo : String → Option String}
    {k : String} {g : PathGroup} (heo : eo k = none) :
    chosenOf ibv dim eo k g =
      if groupIsDurationBased g.candidates then
        selectDurationBased ibv dim g.candidates
      else selectCountBased g.candidates := by
  simp only [chosenOf, heo]

theorem chosenOf_mem {ibv : ℚ} {dim : String} {eo : String → Option String}
    {k : String} {g : PathGroup} {c : Candidate}
    (h : chosenOf ibv dim eo k g = some c) : c ∈ g.candidates := by
  simp only [chosenOf] at h
  cases heo : eo k with
  | some eid =>
    rw [heo] at h
    dsimp only at h
    cases hfind : g.candidates.find? (fun x => x.entry.id == eid) with
    | some c0 =>
      rw [hfind] at h
      obtain rfl := Option.some.inj h
      exact List.mem_of_find?_eq_some hfind
    | none =>
      rw [hfind] at h
      dsimp only at h
      by_cases hdb : groupIsDurationBased g.candidates = true
      · rw [if_pos hdb] at h
        exact (selectDurationBased_eq_some h).1
      · rw [if_neg hdb] at h
        exact List.mem_of_mem_filter (selectCountBased_eq_some h).1
  | none =>
    rw [heo] at h
    dsimp only at h
    by_cases hdb : groupIsDurationBased g.candidates = true
    · rw [if_pos hdb] at h
      exact (selectDurationBased_eq_some h).1
    · rw [if_neg hdb] at h
      exact List.mem_of_mem_filter (selectCountBased_eq_some h).1

theorem buildSentence_spec {ibv : ℚ} {dim : String} {k : String} {g : PathGroup}
    {chosen : Candidate} {s : ConversionSentence}
    (h : buildSentence ibv dim k g chosen = some s) :
    s.conversionId = k ∧ s.outputEntry = chosen.entry ∧ s.count = chosen.rawCount
    ∧ (groupIsDurationBased g.candidates = true →
        ∃ cb, toBaseValue chosen.entry = some cb
          ∧ s.durationHours = some (computeDurationHours ibv dim cb))
    ∧ (groupIsDurationBased g.candidates = false → s.durationHours = none)
    ∧ (groupIsDurationBased g.candidates = false →
        ∀ a ∈ s.alternatives, MIN_COUNT_THRESHOLD ≤ a.count ∧ a.durationHours = none)
    ∧ (groupIsDurationBased g.candidates = true →
        ∀ a ∈ s.alternatives, ∀ dh, a.durationHours = some dh →
          1 / 60 ≤ dh ∧ dh ≤ 876600) := by
  simp only [buildSentence] at h
  cases hum : unitMap chosen.entry.unitId with
  | none => rw [hum] at h; exact absurd h (by simp)
  | some outputUnit =>
    rw [hum] at h
    dsimp only at h
    by_cases hdb : groupIsDurationBased g.candidates = true
    · rw [if_pos hdb] at h
      cases hb : toBaseValue chosen.entry with
      | none => rw [hb] at h; exact absurd h (by simp)
      | some cb =>
        rw [hb] at h
        dsimp only at h
        obtain rfl := Option.some.inj h
        refine ⟨rfl, rfl, rfl, ?_, ?_, ?_, ?_⟩
        · intro _
          exact ⟨cb, rfl, rfl⟩
        · intro hf; simp [hdb] at hf
        · intro hf; simp [hdb] at hf
        · intro _ a ha dh hdh
          rw [mem_sortAlternativesDesc, List.mem_filter] at ha
          have := of_decide_eq_true ha.2
          rw [hdh] at this
          simpa using this
    · rw [if_neg hdb] at h
      obtain rfl := Option.some.inj h
      refine ⟨rfl, rfl, rfl, ?_, ?_, ?_, ?_⟩
      · intro hf; exact absurd hf hdb
      · intro _; rfl
      · intro _ a ha
        rw [mem_sortAlternativesDesc, List.mem_map] at ha
        obtain ⟨c, hc, rfl⟩ := ha
        have := List.of_mem_filter hc
        exact ⟨by simpa using this, rfl⟩
      · intro hf; exact absurd hf hdb

theorem buildSentence_isSome {ibv : ℚ} {dim : String} {k : String} {g : PathGroup}
    {chosen : Candidate}
    (hunit : (unitMap chosen.entry.unitId).isSome)
    (hbase : (toBaseValue chosen.entry).isSome) :
    (buildSentence ibv dim k g chosen).isSome := by
  simp only [buildSentence]
  obtain ⟨ou, hou⟩ := Option.isSome_iff_exists.mp hunit
  rw [hou]
  dsimp only
  by_cases hdb : groupIsDurationBased g.candidates = true
  · rw [if_pos hdb]
    obtain ⟨b, hb⟩ := Option.isSome_iff_exists.mp hbase
    rw [hb]
    rfl
  · rw [if_neg hdb]
    rfl

theorem processGroup_eq_some_iff {ibv : ℚ} {dim : String}
    {eo : String → Option String} {k : String} {g : PathGroup}
    {s : ConversionSentence} :
    processGroup ibv dim eo k g = some s ↔
      ∃ chosen, chosenOf ibv dim eo k g = some chosen
        ∧ buildSentence ibv dim k g chosen = some s := by
  simp only [processGroup]
  cases h : chosenOf ibv dim eo k g with
  | none => simp
  | some chosen => simp

/-! ## Badness bounds: in-bounds durations always beat out-of-bounds ones -/

theorem durationBadness_le_inBounds {h : ℚ} (h1 : 1 / 60 ≤ h) (h2 : h ≤ 876600) :
    durationBadness h ≤ 87660 ^ 3 := by
  have hp : (0:ℚ) < h := lt_of_lt_of_le (by norm_num) h1
  have hpen : durationPenalty h = 0 := by
    rw [durationPenalty, if_neg (not_lt.mpr h1), if_neg (not_lt.mpr h2)]
  have hM1 : h / 10 ≤ 87660 := by
    rw [div_le_iff₀ (by norm_num : (0:ℚ) < 10)]
    linarith
  have hM2 : 10 / h ≤ 87660 := by
    rw [div_le_iff₀ hp]
    nlinarith
  have hM0 : (0:ℚ) ≤ max (h / 10) (10 / h) :=
    le_trans (by positivity) (le_max_left _ _)
  have hcalc : durationBadness h = (max (h / 10) (10 / h)) ^ 3 := by
    rw [durationBadness, hpen]
    norm_num
  rw [hcalc]
  exact pow_le_pow_left₀ hM0 (max_le hM1 hM2) 3

theorem durationBadness_gt_outBounds {h : ℚ} (hp : 0 < h)
    (hout : h < 1 / 60 ∨ 876600 < h) : (87660:ℚ) ^ 3 < durationBadness h := by
  rcases hout with hlt | hgt
  · have hpen : durationPenalty h = 1 := by
      have hno : ¬ (876600 < h) := by linarith
      rw [durationPenalty, if_pos hlt, if_neg hno]
    have hM2 : (600:ℚ) < 10 / h := by
      rw [lt_div_iff₀ hp]
      linarith
    have hM : (600:ℚ) < max (h / 10) (10 / h) :=
      lt_of_lt_of_le hM2 (le_max_right _ _)
    have h3 : (600:ℚ) ^ 3 < (max (h / 10) (10 / h)) ^ 3 :=
      pow_lt_pow_left₀ hM (by norm_num) (by norm_num)
    have hcalc : durationBadness h = (max (h / 10) (10 / h)) ^ 3 * 10 ^ 10 := by
      rw [durationBadness, hpen]
    rw [hcalc]
    calc (87660:ℚ) ^ 3 < 600 ^ 3 * 10 ^ 10 := by norm_num
      _ ≤ (max (h / 10) (10 / h)) ^ 3 * 10 ^ 10 :=
        mul_le_mul_of_nonneg_right (le_of_lt h3) (by positivity)
  · have hpen : durationPenalty h = 1 := by
      have hno : ¬ (h < 1 / 60) := by linarith
      rw [durationPenalty, if_neg hno, if_pos hgt]
    have hM1 : (87660:ℚ) < h / 10 := by
      rw [lt_div_iff₀ (by norm_num : (0:ℚ) < 10)]
      linarith
    have hM : (87660:ℚ) < max (h / 10) (10 / h) :=
      lt_of_lt_of_le hM1 (le_max_left _ _)
    have h3 : (87660:ℚ) ^ 3 < (max (h / 10) (10 / h)) ^ 3 :=
      pow_lt_pow_left₀ hM (by norm_num) (by norm_num)
    have hcalc : durationBadness h = (max (h / 10) (10 / h)) ^ 3 * 10 ^ 10 := by
      rw [durationBadness, hpen]
    rw [hcalc]
    calc (87660:ℚ) ^ 3 < (max (h / 10) (10 / h)) ^ 3 := h3
      _ ≤ (max (h / 10) (10 / h)) ^ 3 * 10 ^ 10 :=
        le_mul_of_one_le_right (by positivity) (by norm_num)

/-! ## Claim C3: the count threshold -/

/-- C3 counterexample: with an entry override that names the
`large-city` entry on the direct path, an input of 1 W produces a
count-based sentence whose selected entry has ratio 10⁻⁹, far below
the 0.1 threshold — so the claim's universal quantification over
entry-override maps fails. -/
theorem threshold_exclusion_cex :
    ∃ s ∈ (buildAllConversions 1 "W" (fun _ => none)
        (fun k => if k = "direct" then some "large-city" else none)).toOption.getD [],
      s.conversionId = "direct" ∧ s.durationHours = none
        ∧ s.count < MIN_COUNT_THRESHOLD :=
  of_decide_eq_true (by with_unfolding_all rfl)

/-- C3 (amended): no count-based candidate with ratio below 0.1 ever
appears in a sentence's alternatives list; and on a path for which the
entry-override map selects nothing, the selected entry's ratio is at
least 0.1, and a count-based path all of whose candidates fall below
0.1 is omitted from the result.  (The original claim also quantified
over entry-override maps; an override naming a below-threshold entry
bypasses the filter, as the counterexample shows.) -/
theorem threshold_exclusion :
    (∀ (n : ℚ) (uid : String) (fo : String → Option ℚ)
        (eo : String → Option String) (s : ConversionSentence),
      s ∈ (buildAllConversions n uid fo eo).toOption.getD [] →
      s.durationHours = none →
      (∀ a ∈ s.alternatives, MIN_COUNT_THRESHOLD ≤ a.count)
      ∧ (eo s.conversionId = none → MIN_COUNT_THRESHOLD ≤ s.count))
    ∧ (∀ (n : ℚ) (uid : String) (fo : String → Option ℚ)
        (eo : String → Option String) (u : Unit') (convId : String),
      getUnit uid = Except.ok u → eo convId = none →
      (∀ c ∈ findCandidates (n * u.toBase) u.dimension fo,
        groupKey c = convId → c.rawCount < MIN_COUNT_THRESHOLD) →
      ∀ s ∈ (buildAllConversions n uid fo eo).toOption.getD [],
        ¬ (s.conversionId = convId ∧ s.durationHours = none)) := by
  constructor
  · intro n uid fo eo s hs hnone
    obtain ⟨u, hu, hpos, k, g, hl, hp⟩ := mem_buildAll_elim hs
    obtain ⟨chosen, hc, hbs⟩ := processGroup_eq_some_iff.mp hp
    obtain ⟨hconv, houte, hcount, hdsome, hdnone, haltc, haltd⟩ := buildSentence_spec hbs
    cases hdbv : groupIsDurationBased g.candidates with
    | true =>
      obtain ⟨cb, _, hsome⟩ := hdsome hdbv
      rw [hnone] at hsome
      cases hsome
    | false =>
      constructor
      · intro a ha
        exact (haltc hdbv a ha).1
      · intro heo
        rw [hconv] at heo
        rw [chosenOf_no_override heo, hdbv] at hc
        simp only [Bool.false_eq_true, if_false] at hc
        have hmemf := (selectCountBased_eq_some hc).1
        have := List.of_mem_filter hmemf
        rw [hcount]
        simpa using this
  · intro n uid fo eo u convId hu heo hall s hs hcontra
    obtain ⟨hconv, hnone⟩ := hcontra
    obtain ⟨u', hu', hpos, k, g, hl, hp⟩ := mem_buildAll_elim hs
    rw [hu] at hu'
    obtain rfl := Except.ok.inj hu'
    obtain ⟨chosen, hc, hbs⟩ := processGroup_eq_some_iff.mp hp
    obtain ⟨hconvk, _, _, hdsome, _, _, _⟩ := buildSentence_spec hbs
    have hk : k = convId := by rw [← hconvk, hconv]
    subst hk
    cases hdbv : groupIsDurationBased g.candidates with
    | true =>
      obtain ⟨cb, _, hsome⟩ := hdsome hdbv
      rw [hnone] at hsome
      cases hsome
    | false =>
      rw [chosenOf_no_override heo, hdbv] at hc
      simp only [Bool.false_eq_true, if_false] at hc
      have hgc := lookupGroup_groupsOf_candidates hl
      have hfil : g.candidates.filter
          (fun c => decide (MIN_COUNT_THRESHOLD ≤ c.rawCount)) = [] := by
        rw [List.filter_eq_nil_iff]
        intro a ha
        rw [hgc, List.mem_filter] at ha
        have hkey : groupKey a = k := by simpa using ha.2
        have := hall a ha.1 hkey
        simpa using not_le.mpr this
      rw [selectCountBased, hfil] at hc
      simp at hc

/-- Witness for C3 (amended): both clauses applied to concrete inputs —
the direct-path sentence for 1 GW with no overrides has all counts at
or above the threshold, and for a tiny 10⁻⁷ Wh input the direct path
(all ratios below threshold) yields no count-based sentence. -/
theorem threshold_exclusion_witness :
    (∃ s ∈ (buildAllConversions 1 "GW" (fun _ => none)
        (fun _ => none)).toOption.getD [],
      s.durationHours = none
      ∧ (∀ a ∈ s.alternatives, MIN_COUNT_THRESHOLD ≤ a.count)
      ∧ MIN_COUNT_THRESHOLD ≤ s.count)
    ∧ (∀ s ∈ (buildAllConversions (1 / 10000000) "Wh" (fun _ => none)
        (fun _ => none)).toOption.getD [],
      ¬ (s.conversionId = "direct" ∧ s.durationHours = none)) := by
  constructor
  · obtain ⟨s, hs, hnone⟩ :
        ∃ s ∈ (buildAllConversions 1 "GW" (fun _ => none)
          (fun _ => none)).toOption.getD [], s.durationHours = none :=
      of_decide_eq_true (by with_unfolding_all rfl)
    have h := threshold_exclusion.1 1 "GW" (fun _ => none) (fun _ => none) s hs hnone
    exact ⟨s, hs, hnone, h.1, h.2 rfl⟩
  · exact threshold_exclusion.2 (1 / 10000000) "Wh" (fun _ => none) (fun _ => none)
      ⟨"Wh", "watt-hours", "Wh", "energy", 1⟩ "direct"
      (by with_unfolding_all rfl) rfl
      (of_decide_eq_true (by with_unfolding_all rfl))

/-! ## Claim C4: duration bounds -/

/-- C4 counterexample: for a 10⁻⁷ Wh input, every candidate of the
duration path computes to a duration under one minute, and the
selector still picks one of them: the produced sentence's selected
duration is below 1/60 h. -/
theorem duration_bounds_cex :
    ∃ s ∈ (buildAllConversions (1 / 10000000) "Wh" (fun _ => none)
        (fun _ => none)).toOption.getD [],
      s.conversionId = "power-energy-duration"
        ∧ ∃ d, s.durationHours = some d ∧ d < 1 / 60 :=
  of_decide_eq_true (by with_unfolding_all rfl)

/-- C4 (amended): a duration outside [1 minute, 100 years] never
appears in a sentence's alternatives list; and the selected duration
lies within those bounds whenever the path has no entry override and at
least one candidate whose duration is in bounds.  (The original claim
held with no proviso: the counterexample shows that when every
candidate is out of bounds the selector still picks one, since the
score penalty is finite.) -/
theorem duration_bounds :
    (∀ (n : ℚ) (uid : String) (fo : String → Option ℚ)
        (eo : String → Option String) (s : ConversionSentence),
      s ∈ (buildAllConversions n uid fo eo).toOption.getD [] →
      ∀ a ∈ s.alternatives, ∀ dh, a.durationHours = some dh →
        1 / 60 ≤ dh ∧ dh ≤ 876600)
    ∧ (∀ (n : ℚ) (uid : String) (fo : String → Option ℚ)
        (eo : String → Option String) (u : Unit') (s : ConversionSentence),
      getUnit uid = Except.ok u →
      s ∈ (buildAllConversions n uid fo eo).toOption.getD [] →
      eo s.conversionId = none →
      (∃ c ∈ findCandidates (n * u.toBase) u.dimension fo,
        groupKey c = s.conversionId ∧
          ∃ b, toBaseValue c.entry = some b
            ∧ 1 / 60 ≤ computeDurationHours (n * u.toBase) u.dimension b
            ∧ computeDurationHours (n * u.toBase) u.dimension b ≤ 876600) →
      ∀ d, s.durationHours = some d → 1 / 60 ≤ d ∧ d ≤ 876600) := by
  constructor
  · intro n uid fo eo s hs a ha dh hdh
    obtain ⟨u, hu, hpos, k, g, hl, hp⟩ := mem_buildAll_elim hs
    obtain ⟨chosen, hc, hbs⟩ := processGroup_eq_some_iff.mp hp
    obtain ⟨_, _, _, _, _, haltc, haltd⟩ := buildSentence_spec hbs
    cases hdbv : groupIsDurationBased g.candidates with
    | true => exact haltd hdbv a ha dh hdh
    | false =>
      have := (haltc hdbv a ha).2
      rw [hdh] at this
      cases this
  · intro n uid fo eo u s hu hs heo hex d hd
    obtain ⟨u', hu', hpos, k, g, hl, hp⟩ := mem_buildAll_elim hs
    rw [hu] at hu'
    obtain rfl := Except.ok.inj hu'
    obtain ⟨chosen, hc, hbs⟩ := processGroup_eq_some_iff.mp hp
    obtain ⟨hconv, _, _, hdsome, hdnone, _, _⟩ := buildSentence_spec hbs
    cases hdbv : groupIsDurationBased g.candidates with
    | false =>
      have := hdnone hdbv
      rw [hd] at this
      cases this
    | true =>
      rw [hconv] at heo
      rw [chosenOf_no_override heo, hdbv, if_pos rfl] at hc
      obtain ⟨hmem, ⟨br, hbr, hbrpos⟩, hmin⟩ := selectDurationBased_eq_some hc
      obtain ⟨cb, hcb, hsd⟩ := hdsome hdbv
      rw [hbr] at hcb
      obtain rfl := Option.some.inj hcb
      rw [hd] at hsd
      obtain rfl := (Option.some.inj hsd).symm
      obtain ⟨c0, hc0mem, hc0key, b0, hb0, hb0lo, hb0hi⟩ := hex
      have hgc := lookupGroup_groupsOf_candidates hl
      have hc0g : c0 ∈ g.candidates := by
        rw [hgc, List.mem_filter]
        refine ⟨hc0mem, ?_⟩
        rw [hconv] at hc0key
        simpa using hc0key
      have hd0pos : 0 < computeDurationHours (n * u.toBase) u.dimension b0 :=
        lt_of_lt_of_le (by norm_num) hb0lo
      have hminb := hmin c0 hc0g b0 br hb0 hbr hd0pos
      by_contra hout
      push_neg at hout
      have houtor : computeDurationHours (n * u.toBase) u.dimension br < 1 / 60
          ∨ 876600 < computeDurationHours (n * u.toBase) u.dimension br := by
        by_cases hlo : 1 / 60 ≤ computeDurationHours (n * u.toBase) u.dimension br
        · exact Or.inr (hout hlo)
        · exact Or.inl (not_le.mp hlo)
      have hgt := durationBadness_gt_outBounds hbrpos houtor
      have hle := durationBadness_le_inBounds hb0lo hb0hi
      have := le_trans hminb hle
      linarith

/-- Witness for C4 (amended): for a 1 kW input with no overrides the
duration sentence exists, its selected duration lies within
[1 minute, 100 years], and so do all its listed alternatives. -/
theorem duration_bounds_witness :
    ∃ s ∈ (buildAllConversions 1 "kW" (fun _ => none)
        (fun _ => none)).toOption.getD [],
      ∃ d, s.durationHours = some d ∧ 1 / 60 ≤ d ∧ d ≤ 876600
        ∧ ∀ a ∈ s.alternatives, ∀ dh, a.durationHours = some dh →
            1 / 60 ≤ dh ∧ dh ≤ 876600 := by
  obtain ⟨s, hs, hconv, hdsome⟩ :
      ∃ s ∈ (buildAllConversions 1 "kW" (fun _ => none)
        (fun _ => none)).toOption.getD [],
        s.conversionId = "power-energy-duration"
          ∧ Option.isSome s.durationHours = true :=
    of_decide_eq_true (by with_unfolding_all rfl)
  obtain ⟨d, hd⟩ := Option.isSome_iff_exists.mp hdsome
  have hbounds := duration_bounds.2 1 "kW" (fun _ => none) (fun _ => none)
    ⟨"kW", "kilowatts", "kW", "power", 1000⟩ s
    (by with_unfolding_all rfl) hs rfl
    (by
      rw [hconv]
      exact of_decide_eq_true (by with_unfolding_all rfl))
    d hd
  have halt := duration_bounds.1 1 "kW" (fun _ => none) (fun _ => none) s hs
  exact ⟨s, hs, d, hd, hbounds.1, hbounds.2, halt⟩

/-! ## Claim C5: entry overrides take precedence over the selectors -/

/-- C5: when the entry-override map names an entry that occurs among
the path's candidates, the produced sentence for that path selects
exactly that entry, regardless of what the count or duration selector
would have picked. -/
theorem override_precedence (n : ℚ) (uid : String) (fo : String → Option ℚ)
    (eo : String → Option String) (u : Unit') (convId eid : String)
    (hu : getUnit uid = Except.ok u) (hpos : ¬ (n * u.toBase ≤ 0))
    (heo : eo convId = some eid)
    (hex : ∃ c ∈ findCandidates (n * u.toBase) u.dimension fo,
      groupKey c = convId ∧ c.entry.id = eid) :
    ∃ s ∈ (buildAllConversions n uid fo eo).toOption.getD [],
      s.conversionId = convId ∧ s.outputEntry.id = eid := by
  obtain ⟨c0, hc0mem, hc0key, hc0id⟩ := hex
  have hc0fil : c0 ∈ (findCandidates (n * u.toBase) u.dimension fo).filter
      (fun c => groupKey c == convId) := by
    rw [List.mem_filter]
    exact ⟨hc0mem, by simpa using hc0key⟩
  obtain ⟨g, hl⟩ : ∃ g, lookupGroup (groupsOf u.dimension
      (findCandidates (n * u.toBase) u.dimension fo)) convId = some g := by
    rw [lookupGroup_groupsOf]
    cases hf : (findCandidates (n * u.toBase) u.dimension fo).filter
        (fun c => groupKey c == convId) with
    | nil => rw [hf] at hc0fil; cases hc0fil
    | cons a rest => exact ⟨_, rfl⟩
  have hgc := lookupGroup_groupsOf_candidates hl
  have hfindSome : (g.candidates.find? (fun x => x.entry.id == eid)).isSome := by
    rw [List.find?_isSome]
    exact ⟨c0, by rw [hgc]; exact hc0fil, by simpa using hc0id⟩
  obtain ⟨chosen, hfind⟩ := Option.isSome_iff_exists.mp hfindSome
  have hchosen : chosenOf (n * u.toBase) u.dimension eo convId g = some chosen :=
    chosenOf_override heo hfind
  have hcid : chosen.entry.id = eid := by
    have := List.find?_some hfind
    simpa using this
  have hcmem : chosen ∈ findCandidates (n * u.toBase) u.dimension fo := by
    have hmemg := List.mem_of_find?_eq_some hfind
    rw [hgc] at hmemg
    exact List.mem_of_mem_filter hmemg
  obtain ⟨b, hb, hbpos⟩ := findCandidates_base hcmem
  have hbs : (toBaseValue chosen.entry).isSome := by rw [hb]; rfl
  have hus : (unitMap chosen.entry.unitId).isSome := by
    rw [toBaseValue] at hbs
    rwa [Option.isSome_map'] at hbs
  have hbsome : (buildSentence (n * u.toBase) u.dimension convId g chosen).isSome :=
    buildSentence_isSome hus hbs
  obtain ⟨s, hsent⟩ := Option.isSome_iff_exists.mp hbsome
  have spec := buildSentence_spec hsent
  have hproc : processGroup (n * u.toBase) u.dimension eo convId g = some s :=
    processGroup_eq_some_iff.mpr ⟨chosen, hchosen, hsent⟩
  refine ⟨s, (mem_buildAll_iff hu hpos).mpr ⟨convId, g, hl, hproc⟩, spec.1, ?_⟩
  rw [spec.2.1]
  exact hcid

/-- Witness for C5: for a 1 GW input, overriding the direct path's
entry to `us-household` (1.2 kW: the count selector would never pick
it, its ratio being about 833 million) makes the direct sentence select
exactly that entry. -/
theorem override_precedence_witness :
    ∃ s ∈ (buildAllConversions 1 "GW" (fun _ => none)
        (fun k => if k = "direct" then some "us-household" else none)).toOption.getD [],
      s.conversionId = "direct" ∧ s.outputEntry.id = "us-household" :=
  override_precedence 1 "GW" (fun _ => none)
    (fun k => if k = "direct" then some "us-household" else none)
    ⟨"GW", "gigawatts", "GW", "power", 1000000000⟩ "direct" "us-household"
    (by with_unfolding_all rfl)
    (of_decide_eq_true (by with_unfolding_all rfl))
    rfl
    (of_decide_eq_true (by with_unfolding_all rfl))

/-! ## Claim C6: degenerate inputs -/

/-- C6: a non-positive input base value yields an empty (but
successful) conversion list, and an unknown unit id yields the error
string `Unknown unit: <id>`. -/
theorem nonpositive_and_unknown_unit :
    (∀ (n : ℚ) (uid : String) (fo : String → Option ℚ)
        (eo : String → Option String) (u : Unit'),
      getUnit uid = Except.ok u → n * u.toBase ≤ 0 →
      buildAllConversions n uid fo eo = Except.ok [])
    ∧ (∀ (n : ℚ) (uid : String) (fo : String → Option ℚ)
        (eo : String → Option String),
      units.find? (fun x => x.id == uid) = none →
      buildAllConversions n uid fo eo = Except.error ("Unknown unit: " ++ uid)) :=
  ⟨fun _ _ fo eo _ hu hle => buildAll_ok_nonpos fo eo hu hle,
   fun _ _ fo eo hf => buildAll_unknown_unit fo eo hf⟩

/-- Witness for C6: a zero gigawatt input produces the empty sentence
list, and the unit id `XYZ` produces the unknown-unit error. -/
theorem nonpositive_and_unknown_unit_witness :
    buildAllConversions 0 "GW" (fun _ => none) (fun _ => none) = Except.ok []
    ∧ buildAllConversions 1 "XYZ" (fun _ => none) (fun _ => none)
        = Except.error ("Unknown unit: " ++ "XYZ") :=
  ⟨nonpositive_and_unknown_unit.1 0 "GW" (fun _ => none) (fun _ => none)
      ⟨"GW", "gigawatts", "GW", "power", 1000000000⟩
      (by with_unfolding_all rfl)
      (of_decide_eq_true (by with_unfolding_all rfl)),
   nonpositive_and_unknown_unit.2 1 "XYZ" (fun _ => none) (fun _ => none)
      (by with_unfolding_all rfl)⟩

end Relative
